import Mathlib

/-!
Verification of the fclip pipeline (src/main.rs) against its specification.

The development shallowly embeds the Rust source: strings are `List Char`
(Rust `str` is a sequence of Unicode scalar values), raw file contents are
`List UInt8`, machine integers are `Nat`, and fallible operations return
`Option` or a dedicated result type.  Floating-point expressions in the
source are modelled by exact rational arithmetic carried out over `Nat`
numerator/denominator pairs; every theorem proved about such a definition
is robust to this idealisation (see the comments at each use site).
-/

namespace Fclip

/-! ## Token estimator (src/main.rs, `estimate_tokens`, lines 16-59) -/

/-- UTF-8 byte length of a text, Rust `text.len()` on a `&str`. -/
def utf8Len (text : List Char) : Nat :=
  (text.map Char.utf8Size).sum

/-- Rust `char::is_ascii_whitespace`: space, tab, newline, form feed, carriage return. -/
def isAsciiWs (c : Char) : Bool :=
  c == ' ' || c == '\t' || c == '\n' || c == '\x0c' || c == '\r'

/-- Rust `char::is_ascii_punctuation`: the four ASCII punctuation ranges. -/
def isAsciiPunct (c : Char) : Bool :=
  decide ((33 ≤ c.toNat ∧ c.toNat ≤ 47) ∨ (58 ≤ c.toNat ∧ c.toNat ≤ 64) ∨
    (91 ≤ c.toNat ∧ c.toNat ≤ 96) ∨ (123 ≤ c.toNat ∧ c.toNat ≤ 126))

/-- The nine characters counted by `text.matches(&[...])` in `estimate_tokens`. -/
def isCodeIndicator (c : Char) : Bool :=
  c == '{' || c == '}' || c == '(' || c == ')' || c == '[' || c == ']' ||
  c == ';' || c == '=' || c == '"'

/-- Embedding of `estimate_tokens` (lines 16-59).  The `f64` arithmetic of the
source is modelled exactly over the rationals: the final
`estimated as usize` truncation is the floor of the rational product
`base_tokens * code_factor * length_factor * complexity_factor`, computed here
as one `Nat` division (`base_tokens` is a multiple of 1/4, the factors are
13/10 or 1, 19/20 or 1 or 11/10, and `(bytes + 9*chars) / (10*chars)`).
All theorems below are robust to the difference between `f64` rounding and
exact rational arithmetic: the clamp bounds hold for every possible value of
`estimated`, and the concrete counterexample value 11/40 = 0.275 is far from
the truncation boundary. -/
def estimate_tokens (text : List Char) : Nat :=
  if text.isEmpty then 0 else
  let chars := text.length
  let bytes := utf8Len text
  let newlines := text.countP (fun c => c == '\n')
  let whitespace_chars := text.countP (fun c => !(c == '\n') && isAsciiWs c)
  let punctuation_chars := text.countP (fun c => !(c == '\n') && !isAsciiWs c && isAsciiPunct c)
  let ascii_chars := text.countP
    (fun c => !(c == '\n') && !isAsciiWs c && !isAsciiPunct c && decide (c.toNat < 128))
  let unicode_chars := text.countP
    (fun c => !(c == '\n') && !isAsciiWs c && !isAsciiPunct c && !decide (c.toNat < 128))
  -- base_tokens = ascii*0.75 + ws*0.25 + punct*1.0 + unicode*1.5 + newlines*1.0,
  -- scaled by 4 to stay in Nat:
  let base_times4 := 3 * ascii_chars + whitespace_chars + 4 * punctuation_chars +
    6 * unicode_chars + 4 * newlines
  let code_indicators := text.countP isCodeIndicator
  -- code_factor = 1.3 or 1.0, as a fraction cfN/cfD:
  let cfN := if code_indicators > chars / 20 then 13 else 1
  let cfD := if code_indicators > chars / 20 then 10 else 1
  -- length_factor = 0.95, 1.0 or 1.1:
  let lfN := if chars > 10000 then 19 else if chars > 1000 then 1 else 11
  let lfD := if chars > 10000 then 20 else if chars > 1000 then 1 else 10
  -- complexity_factor = (bytes / max(chars,1)) * 0.1 + 0.9 = (bytes + 9*c) / (10*c):
  let xfN := bytes + 9 * (max chars 1)
  let xfD := 10 * (max chars 1)
  -- (estimated as usize): floor of the exact rational product.
  let estimated := (base_times4 * cfN * lfN * xfN) / (4 * cfD * lfD * xfD)
  let min_estimate := chars / 6
  let max_estimate := chars * 2
  min (max estimated min_estimate) max_estimate

/-! ## Binary classifier (src/main.rs, `is_likely_binary`, lines 61-71) -/

/-- Embedding of `is_likely_binary` (lines 61-71).  The source computes
`(non_printable_count as f32 / sample_size as f32) > 0.3`.  For every
`sample_size ≤ 1024` this `f32` comparison is equivalent to the exact
comparison `10 * non_printable_count > 3 * sample_size`: both counts are at
most 1024 and hence exactly representable, a ratio p/q with q ≤ 1024 differs
from 3/10 by at least 1/10240 when it differs at all (far beyond `f32`
rounding error near 0.3), the `f32` literal 0.3 is the nearest float to 3/10,
and for `sample_size = 0` the source's 0/0 division yields NaN, for which
`NaN > 0.3` is false, matching `10 * 0 > 3 * 0` here. -/
def is_likely_binary (bytes : List UInt8) : Bool :=
  let sample := bytes.take 1024
  let sample_size := sample.length
  let null_count := sample.countP (fun b => b == 0)
  let non_printable_count :=
    sample.countP (fun b => decide (b.toNat < 32 ∧ b.toNat ≠ 9 ∧ b.toNat ≠ 10 ∧ b.toNat ≠ 13))
  decide (0 < null_count ∨ 3 * sample_size < 10 * non_printable_count)

/-! ## UTF-8 decoding (Rust `fs::read_to_string` / `std::str::from_utf8`) -/

/-- Standard UTF-8 decoding: the validity predicate of Rust
`String::from_utf8` / `fs::read_to_string`, producing the decoded scalar
values.  Rejects overlong encodings, surrogates and code points above
U+10FFFF, exactly as the Unicode standard (and Rust's std) prescribes. -/
def utf8Decode : List UInt8 → Option (List Char)
  | [] => some []
  | b0 :: rest =>
    let n0 := b0.toNat
    if n0 < 0x80 then
      (utf8Decode rest).map (fun cs => Char.ofNat n0 :: cs)
    else if 0xC2 ≤ n0 ∧ n0 ≤ 0xDF then
      match rest with
      | b1 :: r =>
        let n1 := b1.toNat
        if 0x80 ≤ n1 ∧ n1 ≤ 0xBF then
          (utf8Decode r).map (fun cs => Char.ofNat ((n0 - 0xC0) * 0x40 + (n1 - 0x80)) :: cs)
        else none
      | [] => none
    else if 0xE0 ≤ n0 ∧ n0 ≤ 0xEF then
      match rest with
      | b1 :: b2 :: r =>
        let n1 := b1.toNat
        let n2 := b2.toNat
        let lo1 := if n0 = 0xE0 then 0xA0 else 0x80
        let hi1 := if n0 = 0xED then 0x9F else 0xBF
        if (lo1 ≤ n1 ∧ n1 ≤ hi1) ∧ (0x80 ≤ n2 ∧ n2 ≤ 0xBF) then
          (utf8Decode r).map (fun cs =>
            Char.ofNat ((n0 - 0xE0) * 0x1000 + (n1 - 0x80) * 0x40 + (n2 - 0x80)) :: cs)
        else none
      | _ => none
    else if 0xF0 ≤ n0 ∧ n0 ≤ 0xF4 then
      match rest with
      | b1 :: b2 :: b3 :: r =>
        let n1 := b1.toNat
        let n2 := b2.toNat
        let n3 := b3.toNat
        let lo1 := if n0 = 0xF0 then 0x90 else 0x80
        let hi1 := if n0 = 0xF4 then 0x8F else 0xBF
        if (lo1 ≤ n1 ∧ n1 ≤ hi1) ∧ (0x80 ≤ n2 ∧ n2 ≤ 0xBF) ∧ (0x80 ≤ n3 ∧ n3 ≤ 0xBF) then
          (utf8Decode r).map (fun cs =>
            Char.ofNat ((n0 - 0xF0) * 0x40000 + (n1 - 0x80) * 0x1000 +
              (n2 - 0x80) * 0x40 + (n3 - 0x80)) :: cs)
        else none
      | _ => none
    else none

/-! ## Content normalization (src/main.rs, `process_single_file`, lines 810-834) -/

/-- Rust `char::is_whitespace`: the Unicode White_Space property (25 code
points), used by `str::trim`. -/
def isRustWhitespace (c : Char) : Bool :=
  [0x09, 0x0A, 0x0B, 0x0C, 0x0D, 0x20, 0x85, 0xA0, 0x1680,
    0x2028, 0x2029, 0x202F, 0x205F, 0x3000].contains c.toNat ||
  decide (0x2000 ≤ c.toNat ∧ c.toNat ≤ 0x200A)

/-- Rust `content.trim().is_empty()`: true iff every character is Unicode
whitespace. -/
def trimIsEmpty (cs : List Char) : Bool :=
  cs.all isRustWhitespace

/-- Lines 816-818: `content.trim_start_matches('\u{FEFF}')`, guarded by
`starts_with` — removes every leading BOM character. -/
def stripLeadingBoms (cs : List Char) : List Char :=
  if cs.head? = some '﻿' then cs.dropWhile (fun c => c == '﻿') else cs

/-- Line 819: `content.replace("\r\n", "\n")` — Rust `str::replace` rewrites
non-overlapping occurrences left to right, resuming after each replacement. -/
def replaceCrlf : List Char → List Char
  | [] => []
  | [c] => [c]
  | c :: c' :: rest =>
    if c = '\r' ∧ c' = '\n' then '\n' :: replaceCrlf rest
    else c :: replaceCrlf (c' :: rest)

/-- The normalization applied on successful decode (lines 816-819): strip
leading BOMs, then convert CRLF to LF. -/
def normalize_content (cs : List Char) : List Char :=
  replaceCrlf (stripLeadingBoms cs)

/-- Result of loading one file: admitted with its content, silently skipped,
or reported as an error (both non-admitted outcomes exclude the file). -/
inductive LoadResult where
  | admitted (content : List Char)
  | skipped
  | errored
  deriving DecidableEq

/-- Embedding of `process_single_file` (lines 810-834) on the bytes of one
file (the output-file self-reference check of lines 801-808 concerns only
the file identical to the destination and is omitted; it returns `Ok(None)`,
i.e. `skipped`).  `fs::read_to_string` succeeds exactly when the bytes are
valid UTF-8; only on failure are the raw bytes classified by
`is_likely_binary`. -/
def process_single_file (bytes : List UInt8) (exclude_empty : Bool) : LoadResult :=
  match utf8Decode bytes with
  | some content =>
    if exclude_empty && trimIsEmpty content then .skipped
    else .admitted (normalize_content content)
  | none =>
    if is_likely_binary bytes then .skipped else .errored

/-- Auxiliary predicate: does the text contain a CRLF pair? -/
def hasCrlf : List Char → Bool
  | [] => false
  | [_] => false
  | c :: c' :: rest => decide (c = '\r' ∧ c' = '\n') || hasCrlf (c' :: rest)

/-- Auxiliary predicate: every carriage return is immediately followed by a
line feed (the text's only uses of CR are inside CRLF line endings). -/
def crAlwaysLf : List Char → Bool
  | [] => true
  | [c] => !decide (c = '\r')
  | c :: c' :: rest => (!decide (c = '\r') || decide (c' = '\n')) && crAlwaysLf (c' :: rest)

/-- Modelled from the spec: the claim's reading of normalization, which
strips at most ONE leading byte-order mark before converting CRLF to LF.
Used only as the comparison point for the C7 counterexample. -/
def spec_normalize_one_bom (cs : List Char) : List Char :=
  replaceCrlf (if cs.head? = some '﻿' then cs.tail else cs)

/-- The content `process_single_file` admits, if any: the view of a load
result used by both admission loops (`Ok(Some((path, content)))` vs the
skip/error outcomes, which both exclude the file). -/
def loadContent (bytes : List UInt8) (exclude_empty : Bool) : Option (List Char) :=
  match process_single_file bytes exclude_empty with
  | .admitted content => some content
  | .skipped => none
  | .errored => none

/-- The admitted (path, content) pair a candidate contributes, if any. -/
def loadPair (exclude_empty : Bool) (cand : String × List UInt8) :
    Option (String × List Char) :=
  (loadContent cand.2 exclude_empty).map (fun content => (cand.1, content))

/-- Does committing `add` more tokens exceed the optional token budget?
(`cli.max_tokens`: when unset, only the byte budget constrains admission.) -/
def tokenOver (maxT : Option Nat) (current add : Nat) : Bool :=
  match maxT with
  | some m => decide (current + add > m)
  | none => false

/-! ## Sequential admission (src/main.rs, `main` dry-run branch, lines 983-1000) -/

/-- The sequential admission loop: candidates in order, each loaded and then
admitted unless the running byte total or (when configured) token total
would exceed its limit; a rejected candidate is skipped (`continue`)
leaving both totals unchanged. -/
def seqAdmitGo (exclude_empty : Bool) (maxB : Nat) (maxT : Option Nat) :
    List (String × List UInt8) → Nat → Nat → List (String × List Char)
  | [], _, _ => []
  | (path, bytes) :: rest, totalSize, totalTokens =>
    match loadContent bytes exclude_empty with
    | none => seqAdmitGo exclude_empty maxB maxT rest totalSize totalTokens
    | some content =>
      let content_size := utf8Len content
      let content_tokens := estimate_tokens content
      if totalSize + content_size > maxB then
        seqAdmitGo exclude_empty maxB maxT rest totalSize totalTokens
      else if tokenOver maxT totalTokens content_tokens then
        seqAdmitGo exclude_empty maxB maxT rest totalSize totalTokens
      else
        (path, content) ::
          seqAdmitGo exclude_empty maxB maxT rest (totalSize + content_size)
            (totalTokens + content_tokens)

/-- Sequential admission starting from zero totals. -/
def seqAdmit (cands : List (String × List UInt8)) (exclude_empty : Bool)
    (maxB : Nat) (maxT : Option Nat) : List (String × List Char) :=
  seqAdmitGo exclude_empty maxB maxT cands 0 0

/-! ## Parallel extraction (src/main.rs, `process_files_parallel`, lines 708-798)

The budget state is a pair of shared atomic counters (`total_size`,
`total_tokens`, lines 729-730).  Each worker task performs, for its
candidate: the CHECK — `total_size.load`, the byte comparison (line 744),
`total_tokens.load` and the token comparison (lines 754-756) — and then,
only if its own check passed, the COMMIT — `total_size.fetch_add` and
`total_tokens.fetch_add` (lines 767-768).  The check and the commit are two
separate groups of atomic operations with no lock spanning them, so steps of
other workers may interleave between a task's check and its commit.  A
schedule is a list of such events; executing one models one interleaved run
of the worker pool. -/

/-- One scheduler event: worker for candidate `i` runs its budget check, or
its commit. -/
inductive Ev where
  | check (i : Nat)
  | commit (i : Nat)
  deriving DecidableEq

/-- The shared extraction state: the two counters, the set of candidate
indices whose check passed (each such task will commit), and the admitted
indices in commit order. -/
structure ParState where
  totalSize : Nat
  totalTokens : Nat
  passed : List Nat
  admitted : List Nat
  deriving DecidableEq

/-- The initial extraction state. -/
def parInit : ParState := ⟨0, 0, [], []⟩

/-- The content worker `i` loads (`process_single_file(&file_path, cli)` on
its candidate), if any. -/
def loadAt (cands : List (String × List UInt8)) (excl : Bool) (i : Nat) :
    Option (List Char) :=
  (cands[i]?).bind (fun cand => loadContent cand.2 excl)

/-- Execute one event against the shared state.  A check that fails (or a
candidate that does not load) changes nothing; a commit adds the candidate's
size and token cost to the counters and appends it to the admitted
collection.  The `i ∉ admitted` guard models that each worker task commits
at most once. -/
def parStep (cands : List (String × List UInt8)) (exclude_empty : Bool)
    (maxB : Nat) (maxT : Option Nat) (s : ParState) : Ev → ParState
  | .check i =>
    match loadAt cands exclude_empty i with
    | none => s
    | some content =>
      if s.totalSize + utf8Len content > maxB then s
      else if tokenOver maxT s.totalTokens (estimate_tokens content) then s
      else { s with passed := i :: s.passed }
  | .commit i =>
    if i ∈ s.passed ∧ i ∉ s.admitted then
      match loadAt cands exclude_empty i with
      | none => s
      | some content =>
        { totalSize := s.totalSize + utf8Len content
          totalTokens := s.totalTokens + estimate_tokens content
          passed := s.passed
          admitted := s.admitted ++ [i] }
    else s

/-- Execute a whole schedule from the initial state. -/
def parRun (cands : List (String × List UInt8)) (exclude_empty : Bool)
    (maxB : Nat) (maxT : Option Nat) (sched : List Ev) : ParState :=
  sched.foldl (parStep cands exclude_empty maxB maxT) parInit

/-! ## Path-ordered sorting (lines 794-795 and 978-980)

Rust's `sort`/`sort_by` is modelled by insertion sort: the theorems below
establish exactly the properties any correct sort has (stably sorted,
permutation of the input), and with pairwise-distinct keys the sorted result
is unique, so the model is insensitive to the algorithm choice.  The
comparator is Rust's `Ord` for `Path`/`PathBuf` (`paths.sort()` at line 979,
`sort_by(|a, b| a.0.cmp(&b.0))` at line 795): it compares the SEQUENCE OF
COMPONENTS, each component by its bytes — NOT the flat path string.  For the
separator-normalized relative paths the walks produce (no root, no `.` or
`..` segments, no repeated separators), the components are the
slash-separated segments; UTF-8 byte order coincides with code-point order,
so a component compares as its character list and a path as its list of
segments under the lexicographic list order. -/

/-- The slash-separated segments of a path string (`Path::components` for
the plain relative paths handled here). -/
def splitSlash : List Char → List (List Char)
  | [] => [[]]
  | c :: rest =>
    if c = '/' then [] :: splitSlash rest
    else
      match splitSlash rest with
      | [] => [[c]]
      | s :: ss => (c :: s) :: ss

/-- The sort key realizing Rust `Path::cmp`: the list of components, ordered
lexicographically with each component ordered by its characters. -/
def pathKey (p : String) : List (List Char) :=
  splitSlash p.data

/-- Insert one element into a list sorted by a key. -/
def insertByKey {α κ : Type} [LinearOrder κ] (key : α → κ) (x : α) : List α → List α
  | [] => [x]
  | y :: rest => if key x ≤ key y then x :: y :: rest else y :: insertByKey key x rest

/-- Insertion sort by a key. -/
def sortByKey {α κ : Type} [LinearOrder κ] (key : α → κ) : List α → List α
  | [] => []
  | x :: rest => insertByKey key x (sortByKey key rest)

/-- `final_results.sort_by(|a, b| a.0.cmp(&b.0))` (line 795): the collected
admitted pairs, re-sorted by the component-wise path order before being
handed onward. -/
def parResult (cands : List (String × List UInt8)) (exclude_empty : Bool)
    (maxB : Nat) (maxT : Option Nat) (sched : List Ev) : List (String × List Char) :=
  sortByKey (fun pr => pathKey pr.1)
    ((parRun cands exclude_empty maxB maxT sched).admitted.filterMap
      (fun i => (cands[i]?).bind (loadPair exclude_empty)))

/-- The cost (under a cost function `g`, byte size or token estimate) that
candidate `i` contributes when it loads, 0 otherwise. -/
def costAt (cands : List (String × List UInt8)) (excl : Bool)
    (g : List Char → Nat) (i : Nat) : Nat :=
  match loadAt cands excl i with
  | some c => g c
  | none => 0

/-- The indices of the candidates that load successfully. -/
def loadableIdx (cands : List (String × List UInt8)) (excl : Bool) : List Nat :=
  (List.range cands.length).filter (fun i => (loadAt cands excl i).isSome)

/-- Invariant of the parallel extraction state: admitted indices are
distinct and loadable, passed indices are loadable, and the two shared
counters are exactly the sums of the admitted sizes and token estimates. -/
def ParInv (cands : List (String × List UInt8)) (excl : Bool) (s : ParState) : Prop :=
  s.admitted.Nodup ∧
  (∀ i ∈ s.admitted, (loadAt cands excl i).isSome = true) ∧
  (∀ i ∈ s.passed, (loadAt cands excl i).isSome = true) ∧
  s.totalSize = (s.admitted.map (costAt cands excl utf8Len)).sum ∧
  s.totalTokens = (s.admitted.map (costAt cands excl estimate_tokens)).sum

/-! ## Candidate collection (src/main.rs, `main`, lines 919-981) -/

/-- `HashSet::insert`: add a path only if not already present.  (The set's
iteration order is irrelevant: the final sort is the sole source of order.) -/
def insertUnique (found : List String) (p : String) : List String :=
  if p ∈ found then found else found ++ [p]

/-- The candidate list handed to extraction: all primary-walk files and all
override-walk files accepted by the unignore patterns are inserted into one
set (lines 948 and 970-971), which is then sorted with `paths.sort()`
(lines 978-980), i.e. by the component-wise `Path` order. -/
def build_candidates (primary overrideAccepted : List String) : List String :=
  sortByKey pathKey (overrideAccepted.foldl insertUnique (primary.foldl insertUnique []))

/-! ## Output chunking (src/main.rs, `write_output_chunks`, lines 494-531) -/

/-- Rust `slice::chunks(n)` (for n ≥ 1): split into consecutive runs of `n`
elements, the last possibly shorter. -/
def chunkGo {α : Type} (n : Nat) : List α → List α → List (List α)
  | [], cur => if cur.isEmpty then [] else [cur]
  | x :: xs, cur =>
    if cur.length + 1 = n then (cur ++ [x]) :: chunkGo n xs []
    else chunkGo n xs (cur ++ [x])

/-- All `n`-sized chunks of a list. -/
def chunksOf {α : Type} (n : Nat) (l : List α) : List (List α) :=
  chunkGo n l []

/-- Embedding of `write_output_chunks` (lines 494-531) as the byte sequences
written to the output file(s), in sequence order.  A content that fits in
one chunk is written whole; otherwise each byte chunk is passed through
`std::str::from_utf8(chunk).unwrap_or("")` (line 510) and the resulting
string's bytes are written — so a chunk that is not valid UTF-8 on its own
is written as the empty string. -/
def write_output_chunks (content : List UInt8) (chunk_size : Nat) : List (List UInt8) :=
  if content.length ≤ chunk_size then [content]
  else (chunksOf chunk_size content).map
    (fun c => if (utf8Decode c).isSome then c else [])

/-! ## Grouping and the grouped JSON layout (src/main.rs, lines 324-362 and 547-591) -/

/-- Rust `Path::extension` on a path string: the portion of the file name
after its last dot, or none when the file name has no dot or is a leading-dot
name such as ".gitignore" with no further dot. -/
def extensionOf (path : String) : Option String :=
  let fname := (path.toList.reverse.takeWhile (fun c => c ≠ '/')).reverse
  let afterDot := fname.reverse.takeWhile (fun c => c ≠ '.')
  if afterDot.length = fname.length then none
  else if afterDot.length + 1 = fname.length ∧ fname.head? = some '.' then none
  else some (String.mk afterDot.reverse)

/-- The extension-to-category mapping of `group_files_by_type`
(lines 332-352), as a finite table: each `match` arm contributes its
alternatives as keys. -/
def groupTable : List (String × String) :=
  [("rs", "Rust Source"), ("py", "Python Source"),
   ("js", "JavaScript Source"), ("jsx", "JavaScript Source"),
   ("ts", "TypeScript Source"), ("tsx", "TypeScript Source"),
   ("html", "HTML Templates"), ("htm", "HTML Templates"),
   ("css", "Stylesheets"), ("scss", "Stylesheets"), ("sass", "Stylesheets"),
   ("json", "JSON Configuration"), ("toml", "TOML Configuration"),
   ("yml", "YAML Configuration"), ("yaml", "YAML Configuration"),
   ("md", "Documentation"), ("markdown", "Documentation"),
   ("txt", "Text Files"), ("text", "Text Files"),
   ("sh", "Shell Scripts"), ("bash", "Shell Scripts"), ("zsh", "Shell Scripts"),
   ("sql", "Database Scripts"), ("go", "Go Source"), ("java", "Java Source"),
   ("c", "C Source"), ("h", "C Source"),
   ("cpp", "C++ Source"), ("hpp", "C++ Source"), ("cc", "C++ Source"),
   ("no-extension", "Files without extension")]

/-- The category name of an extension: its table entry, with the `match`
catch-all "Other Files" as default. -/
def groupNameOf (ext : String) : String :=
  ((groupTable.find? (fun e => e.1 == ext)).map Prod.snd).getD "Other Files"

/-- Append a file to its category bucket (`groups.entry(group).or_default().push(file)`). -/
def addToGroups (groups : List (String × List (String × List Char)))
    (name : String) (file : String × List Char) :
    List (String × List (String × List Char)) :=
  match groups with
  | [] => [(name, [file])]
  | (n, fs) :: rest =>
    if n = name then (n, fs ++ [file]) :: rest
    else (n, fs) :: addToGroups rest name file

/-- Embedding of `group_files_by_type` (lines 324-362): bucket the files by
category, then sort by the (name, count) key and reverse, i.e. descending.
Category names are unique keys, so sorting by name alone determines the
order and the count component of the source's sort key never decides. -/
def group_files_by_type (files : List (String × List Char)) :
    List (String × List (String × List Char)) :=
  (sortByKey Prod.fst
    (files.foldl
      (fun gs f => addToGroups gs (groupNameOf ((extensionOf f.1).getD "no-extension")) f)
      [])).reverse

/-- The rendered output of `format_output` when `group_by_type` is set and
the JSON format is selected (lines 547-591): per group a heading is pushed,
then for each file the `OutputFormat::Json` match arm (lines 584-585) pushes
NOTHING, then one newline is pushed; the function returns at line 590
without ever reaching the JSON serialization of lines 635-670. -/
def format_output_grouped_json (files : List (String × List Char)) : String :=
  (group_files_by_type files).foldl
    (fun out g => out ++ "# " ++ g.1 ++ "\n\n" ++ "\n") ""

/-! ## Whitespace compression (src/main.rs, `compress_content`, lines 104-172) -/

/-- Horizontal whitespace as `compress_content` treats it: the two characters
tested at lines 115 and 140-151. -/
def isHT (c : Char) : Bool :=
  c == ' ' || c == '\t'

/-- Rust `str::split_inclusive('\n')` (the underlying splitter of
`str::lines`): pieces each keep their terminating newline; the final piece
may lack one; the empty string yields no pieces. -/
def splitInclNl : List Char → List (List Char)
  | [] => []
  | c :: rest =>
    if c = '\n' then ['\n'] :: splitInclNl rest
    else
      match splitInclNl rest with
      | [] => [[c]]
      | p :: ps => (c :: p) :: ps

/-- The per-piece map of Rust `str::lines`: strip the trailing newline when
present, and then one trailing carriage return. -/
def lineOfPiece (piece : List Char) : List Char :=
  if piece.getLast? = some '\n' then
    if piece.dropLast.getLast? = some '\r' then piece.dropLast.dropLast
    else piece.dropLast
  else piece

/-- Rust `content.lines()` (line 105). -/
def linesOf (s : List Char) : List (List Char) :=
  (splitInclNl s).map lineOfPiece

/-- The per-line scanner state of `compress_content` (lines 123-126). -/
structure WsState where
  prevSpace : Bool
  inString : Bool
  stringChar : Char
  prevChar : Char

/-- One iteration of the per-line character loop (lines 128-158): the emitted
characters and the next state.  The first branch is the
match arm for a quote character (double or single) not preceded by a
backslash, the second the two
space/tab-outside-string arms, the last the catch-all;
`prev_char = ch` runs after every arm. -/
def wsStep (st : WsState) (ch : Char) : List Char × WsState :=
  if (ch = '"' ∨ ch = '\x27') ∧ st.prevChar ≠ '\\' then
    if ¬ st.inString then ([ch], ⟨false, true, ch, ch⟩)
    else if ch = st.stringChar then ([ch], ⟨false, false, st.stringChar, ch⟩)
    else ([ch], ⟨false, st.inString, st.stringChar, ch⟩)
  else if (ch = ' ' ∨ ch = '\t') ∧ ¬ st.inString then
    if st.prevSpace then ([], ⟨true, st.inString, st.stringChar, ch⟩)
    else ([' '], ⟨true, st.inString, st.stringChar, ch⟩)
  else
    ([ch], ⟨false, st.inString, st.stringChar, ch⟩)

/-- Run the scanner over the content part of a line. -/
def runWs (st : WsState) : List Char → List Char
  | [] => []
  | ch :: rest =>
    let out := wsStep st ch
    out.1 ++ runWs out.2 rest

/-- The scanner's initial state (lines 123-126). -/
def wsInit : WsState :=
  ⟨false, false, '"', '\x00'⟩

/-- Rust `line.trim().is_empty()` (line 109). -/
def blankLine (line : List Char) : Bool :=
  line.all isRustWhitespace

/-- The body the loop of lines 108-161 appends for one line: a bare newline
for a blank line; otherwise the leading indentation verbatim (lines 114-121
— the `position` char index equals the byte index used for slicing, because
every character before it is a one-byte space or tab), the scanned content
part, and a newline. -/
def processLine (line : List Char) : List Char :=
  if blankLine line then ['\n']
  else line.takeWhile isHT ++ runWs wsInit (line.dropWhile isHT) ++ ['\n']

/-- The full result string before the trailing-newline pop (lines 104-161). -/
def compressBody (content : List Char) : List Char :=
  ((linesOf content).map processLine).flatten

/-- Lines 163-165: pop the final newline when the input did not end with one
but the built result does. -/
def compressPopped (content : List Char) : List Char :=
  let body := compressBody content
  if content.getLast? ≠ some '\n' ∧ body.getLast? = some '\n' then body.dropLast
  else body

/-- Does the text contain three consecutive newlines?
(`result.contains("\n\n\n")`, line 167.) -/
def containsNNN : List Char → Bool
  | a :: b :: c :: rest =>
    (decide (a = '\n') && decide (b = '\n') && decide (c = '\n')) ||
      containsNNN (b :: c :: rest)
  | _ => false

/-- One pass of `result.replace("\n\n\n", "\n\n")` (line 168): non-overlapping
occurrences, resuming after each replacement. -/
def collapseOnce : List Char → List Char
  | a :: b :: c :: rest =>
    if a = '\n' ∧ b = '\n' ∧ c = '\n' then '\n' :: '\n' :: collapseOnce rest
    else a :: collapseOnce (b :: c :: rest)
  | l => l

/-- The `while result.contains("\n\n\n")` loop (lines 167-169), with explicit
fuel; each productive pass strictly shrinks the string, so fuel equal to the
length always reaches the loop's fixed point (proved below: with sufficient
fuel the result is independent of the fuel and equals `squeezeSt 0`). -/
def collapseLoopAux : Nat → List Char → List Char
  | 0, s => s
  | fuel + 1, s => if containsNNN s then collapseLoopAux fuel (collapseOnce s) else s

/-- The blank-line collapsing loop of `compress_content`. -/
def collapseBlank (s : List Char) : List Char :=
  collapseLoopAux s.length s

/-- Embedding of `compress_content` (lines 104-172). -/
def compress_content (content : List Char) : List Char :=
  collapseBlank (compressPopped content)

/-- Modelled from the spec: collapsing every run of three or more newlines
means capping every maximal newline run at two (one blank line); the state
`k` counts the newlines already emitted in the current run (capped at 2).
Used as the extensional characterization of the collapsing loop. -/
def squeezeSt : Nat → List Char → List Char
  | _, [] => []
  | k, c :: rest =>
    if c = '\n' then
      if 2 ≤ k then squeezeSt k rest else '\n' :: squeezeSt (k + 1) rest
    else c :: squeezeSt 0 rest

/-- Modelled from the spec: "collapses runs of horizontal whitespace …
to a single space" — each maximal nonempty run of spaces/tabs becomes one
space; the flag records whether the previous character was part of a run.
Used as the comparison point for the scanner on quote-free lines. -/
def wsSpecSt : Bool → List Char → List Char
  | _, [] => []
  | prev, c :: rest =>
    if isHT c then (if prev then wsSpecSt true rest else ' ' :: wsSpecSt true rest)
    else c :: wsSpecSt false rest

/-! # Theorems -/

/-! ## Sorting infrastructure lemmas -/

/-- Inserting into a keyed list is a permutation of consing. -/
theorem insertByKey_perm {α κ : Type} [LinearOrder κ] (key : α → κ) (x : α) :
    ∀ l : List α, (insertByKey key x l).Perm (x :: l)
  | [] => List.Perm.refl _
  | y :: rest => by
    rw [insertByKey]
    split
    · exact List.Perm.refl _
    · exact ((insertByKey_perm key x rest).cons y).trans (List.Perm.swap x y rest)

/-- Insertion sort is a permutation of its input. -/
theorem sortByKey_perm {α κ : Type} [LinearOrder κ] (key : α → κ) :
    ∀ l : List α, (sortByKey key l).Perm l
  | [] => List.Perm.refl _
  | x :: rest =>
    (insertByKey_perm key x (sortByKey key rest)).trans ((sortByKey_perm key rest).cons x)

/-- Membership in an insertion. -/
theorem mem_insertByKey {α κ : Type} [LinearOrder κ] (key : α → κ) (x z : α) (l : List α) :
    z ∈ insertByKey key x l ↔ z = x ∨ z ∈ l := by
  rw [(insertByKey_perm key x l).mem_iff, List.mem_cons]

/-- Inserting preserves sortedness by the key. -/
theorem insertByKey_pairwise {α κ : Type} [LinearOrder κ] (key : α → κ) (x : α) :
    ∀ l : List α, l.Pairwise (fun a b => key a ≤ key b) →
      (insertByKey key x l).Pairwise (fun a b => key a ≤ key b)
  | [], _ => by simp [insertByKey]
  | y :: rest, h => by
    rw [insertByKey]
    rw [List.pairwise_cons] at h
    split
    · rename_i hxy
      rw [List.pairwise_cons]
      refine ⟨?_, List.pairwise_cons.mpr h⟩
      intro z hz
      rcases List.mem_cons.mp hz with rfl | hz'
      · exact hxy
      · exact le_trans hxy (h.1 z hz')
    · rename_i hxy
      rw [List.pairwise_cons]
      refine ⟨?_, insertByKey_pairwise key x rest h.2⟩
      intro z hz
      rcases (mem_insertByKey key x z rest).mp hz with rfl | hz'
      · exact le_of_not_le hxy
      · exact h.1 z hz'

/-- Insertion sort sorts by the key. -/
theorem sortByKey_pairwise {α κ : Type} [LinearOrder κ] (key : α → κ) :
    ∀ l : List α, (sortByKey key l).Pairwise (fun a b => key a ≤ key b)
  | [] => List.Pairwise.nil
  | x :: rest => insertByKey_pairwise key x _ (sortByKey_pairwise key rest)

/-- A le-sorted list whose keys are pairwise distinct is strictly sorted. -/
theorem pairwise_lt_of_le_of_nodup_keys {α κ : Type} [LinearOrder κ] (key : α → κ) {l : List α}
    (hle : l.Pairwise (fun a b => key a ≤ key b)) (hnd : (l.map key).Nodup) :
    l.Pairwise (fun a b => key a < key b) := by
  have hne : l.Pairwise (fun a b => key a ≠ key b) := (List.pairwise_map).mp hnd
  exact (hle.and hne).imp (fun h => lt_of_le_of_ne h.1 h.2)

/-- Two permuted strictly-key-sorted lists are equal. -/
theorem eq_of_perm_of_sorted_keys {α κ : Type} [LinearOrder κ] (key : α → κ) {l₁ l₂ : List α}
    (hp : l₁.Perm l₂) (h₁ : l₁.Pairwise (fun a b => key a < key b))
    (h₂ : l₂.Pairwise (fun a b => key a < key b)) : l₁ = l₂ := by
  haveI : IsAntisymm α (fun a b => key a < key b) :=
    ⟨fun a b hab hba => absurd hab (lt_asymm hba)⟩
  exact List.eq_of_perm_of_sorted hp h₁ h₂

/-- Membership through the set-building fold. -/
theorem mem_foldl_insertUnique (l : List String) :
    ∀ (acc : List String) (x : String),
      x ∈ l.foldl insertUnique acc ↔ x ∈ acc ∨ x ∈ l := by
  induction l with
  | nil => intro acc x; simp
  | cons p rest ih =>
    intro acc x
    rw [List.foldl_cons, ih]
    unfold insertUnique
    split
    · rename_i hmem
      constructor
      · rintro (h | h)
        · exact Or.inl h
        · exact Or.inr (List.mem_cons_of_mem _ h)
      · rintro (h | h)
        · exact Or.inl h
        · rcases List.mem_cons.mp h with rfl | h'
          · exact Or.inl hmem
          · exact Or.inr h'
    · constructor
      · rintro (h | h)
        · rcases List.mem_append.mp h with h' | h'
          · exact Or.inl h'
          · exact Or.inr (List.mem_cons.mpr (Or.inl (List.mem_singleton.mp h')))
        · exact Or.inr (List.mem_cons_of_mem _ h)
      · rintro (h | h)
        · exact Or.inl (List.mem_append.mpr (Or.inl h))
        · rcases List.mem_cons.mp h with rfl | h'
          · exact Or.inl (List.mem_append.mpr (Or.inr (List.mem_singleton.mpr rfl)))
          · exact Or.inr h'

/-- The set-building fold never introduces duplicates. -/
theorem nodup_foldl_insertUnique (l : List String) :
    ∀ acc : List String, acc.Nodup → (l.foldl insertUnique acc).Nodup := by
  induction l with
  | nil => intro acc h; exact h
  | cons p rest ih =>
    intro acc h
    rw [List.foldl_cons]
    apply ih
    unfold insertUnique
    split
    · exact h
    · rename_i hmem
      simp [List.nodup_append, h, hmem]

/-! ## C2: token estimator bounds -/

/-- Claim C2, counterexample: the single-character text consisting of one
space is non-empty, yet its token estimate is 0, strictly below the claimed
lower bound of ⌈chars/6⌉ = ⌈1/6⌉ = 1.  (The source clamps with the floor
`chars / 6`, which is 0 here, and the raw estimate 0.25·1.1 = 0.275
truncates to 0.) -/
theorem c2_counterexample :
    estimate_tokens [' '] = 0 ∧ ¬ (([' '].length + 5) / 6 ≤ estimate_tokens [' ']) := by
  decide

/-- Claim C2 (corrected): the token estimator maps the empty string to 0, and
for every non-empty text its result lies between ⌊chars/6⌋ (floor, not the
claimed ceiling) and 2·chars inclusive, where chars is the number of Unicode
scalar values; the function is a total Lean function, hence deterministic. -/
theorem c2_token_bounds (t : List Char) (h : t ≠ []) :
    estimate_tokens [] = 0 ∧
    t.length / 6 ≤ estimate_tokens t ∧ estimate_tokens t ≤ 2 * t.length := by
  refine ⟨rfl, ?_, ?_⟩
  · show t.length / 6 ≤ estimate_tokens t
    unfold estimate_tokens
    have ht : t.isEmpty = false := by simp [List.isEmpty_iff, h]
    simp only [ht, if_false]
    refine le_min (le_max_right _ _) ?_
    calc t.length / 6 ≤ t.length := Nat.div_le_self _ _
    _ ≤ t.length * 2 := by omega
  · show estimate_tokens t ≤ 2 * t.length
    unfold estimate_tokens
    have ht : t.isEmpty = false := by simp [List.isEmpty_iff, h]
    simp only [ht, if_false]
    calc min _ (t.length * 2) ≤ t.length * 2 := min_le_right _ _
    _ = 2 * t.length := by omega

/-- Witness for C2 at the concrete non-empty text "ab". -/
theorem c2_token_bounds_witness :
    (['a', 'b'] : List Char) ≠ [] ∧
    (estimate_tokens [] = 0 ∧
      ['a', 'b'].length / 6 ≤ estimate_tokens ['a', 'b'] ∧
      estimate_tokens ['a', 'b'] ≤ 2 * ['a', 'b'].length) :=
  ⟨by decide, c2_token_bounds ['a', 'b'] (by decide)⟩

/-! ## C7: normalization -/

/-- Claim C7, counterexample: on a text with two leading byte-order marks the
code strips BOTH (`trim_start_matches` removes every leading occurrence),
whereas the claim's "strips one leading byte-order mark" would leave one. -/
theorem c7_counterexample :
    normalize_content ['﻿', '﻿', 'a'] = ['a'] ∧
    spec_normalize_one_bom ['﻿', '﻿', 'a'] = ['﻿', 'a'] ∧
    normalize_content ['﻿', '﻿', 'a'] ≠
      spec_normalize_one_bom ['﻿', '﻿', 'a'] := by
  decide

/-- Helper: `replaceCrlf` is the identity on texts without CRLF pairs. -/
theorem replaceCrlf_eq_self_of_not_hasCrlf (cs : List Char) (h : hasCrlf cs = false) :
    replaceCrlf cs = cs := by
  induction cs using replaceCrlf.induct with
  | case1 => rfl
  | case2 c => rfl
  | case3 c c' rest hc ih =>
    simp only [hasCrlf, Bool.or_eq_false_iff, decide_eq_false_iff_not] at h
    exact absurd hc h.1
  | case4 c c' rest hc ih =>
    simp only [hasCrlf, Bool.or_eq_false_iff] at h
    rw [replaceCrlf, if_neg hc, ih h.2]

/-- Helper: `replaceCrlf` never turns a non-BOM head into a BOM. -/
theorem replaceCrlf_head_ne_bom (cs : List Char) (h : cs.head? ≠ some '﻿') :
    (replaceCrlf cs).head? ≠ some '﻿' := by
  match cs with
  | [] => simp [replaceCrlf]
  | [c] =>
    simp only [replaceCrlf]
    exact h
  | c :: c' :: rest =>
    rw [replaceCrlf]
    by_cases hc : c = '\r' ∧ c' = '\n'
    · rw [if_pos hc]
      simp only [List.head?_cons, ne_eq, Option.some.injEq]
      decide
    · rw [if_neg hc]
      simpa using h

/-- Helper: after dropping leading BOMs the head is never a BOM. -/
theorem head_dropWhile_bom_ne (l : List Char) :
    (l.dropWhile (fun c => c == '﻿')).head? ≠ some '﻿' := by
  induction l with
  | nil => simp
  | cons c rest ih =>
    rw [List.dropWhile_cons]
    by_cases hc : c = '﻿'
    · simpa [hc] using ih
    · simp only [hc, beq_iff_eq, if_false]
      simpa using hc

/-- Helper: the head after `stripLeadingBoms` is never a BOM. -/
theorem stripLeadingBoms_head_ne_bom (cs : List Char) :
    (stripLeadingBoms cs).head? ≠ some '﻿' := by
  unfold stripLeadingBoms
  split
  · exact head_dropWhile_bom_ne cs
  · rename_i hh
    exact hh

/-- Helper: the tail through a `crAlwaysLf` text still satisfies it. -/
theorem crAlwaysLf_tail (c : Char) (rest : List Char)
    (h : crAlwaysLf (c :: rest) = true) : crAlwaysLf rest = true := by
  match rest with
  | [] => rfl
  | c' :: rest' =>
    simp only [crAlwaysLf, Bool.and_eq_true] at h
    exact h.2

/-- Helper: `replaceCrlf` removes every CR from a text whose CRs all sit in
CRLF pairs. -/
theorem replaceCrlf_no_cr (cs : List Char) (h : crAlwaysLf cs = true) :
    '\r' ∉ replaceCrlf cs := by
  induction cs using replaceCrlf.induct with
  | case1 => simp [replaceCrlf]
  | case2 c =>
    simp only [crAlwaysLf, Bool.not_eq_eq_eq_not, Bool.not_true, decide_eq_false_iff_not] at h
    simp only [replaceCrlf, List.mem_singleton]
    exact fun hc => h hc.symm
  | case3 c c' rest hc ih =>
    obtain ⟨rfl, rfl⟩ := hc
    rw [replaceCrlf, if_pos ⟨rfl, rfl⟩]
    have h2 : crAlwaysLf rest = true := crAlwaysLf_tail _ _ (crAlwaysLf_tail _ _ h)
    intro hmem
    rcases List.mem_cons.mp hmem with h4 | h4
    · exact absurd h4 (by decide)
    · exact ih h2 h4
  | case4 c c' rest hc ih =>
    rw [replaceCrlf, if_neg hc]
    have h2 : crAlwaysLf (c' :: rest) = true := crAlwaysLf_tail _ _ h
    intro hmem
    rcases List.mem_cons.mp hmem with h4 | h4
    · subst h4
      have h5 : c' = '\n' := by
        simp only [crAlwaysLf, Bool.and_eq_true, Bool.or_eq_true] at h
        rcases h.1 with h6 | h6
        · simp at h6
        · exact of_decide_eq_true h6
      exact hc ⟨rfl, h5⟩
    · exact ih h2 h4

/-- Helper: dropping leading BOMs preserves `crAlwaysLf`. -/
theorem crAlwaysLf_dropWhile_bom (cs : List Char) (h : crAlwaysLf cs = true) :
    crAlwaysLf (cs.dropWhile (fun c => c == '﻿')) = true := by
  induction cs with
  | nil => exact h
  | cons c rest ih =>
    rw [List.dropWhile_cons]
    by_cases hc : c = '﻿'
    · simpa [hc] using ih (crAlwaysLf_tail _ _ h)
    · simpa [hc] using h

/-- Claim C7 (corrected): normalization strips ALL leading byte-order marks
(not just one) and converts CRLF pairs to LF; it is a no-op on content with
no leading BOM and no CRLF; its result never starts with a BOM; and on
content whose every CR belongs to a CRLF pair the result contains no CR at
all. -/
theorem c7_normalize_spec :
    (∀ cs : List Char, cs.head? ≠ some '﻿' → hasCrlf cs = false →
      normalize_content cs = cs) ∧
    (∀ cs : List Char, (normalize_content cs).head? ≠ some '﻿') ∧
    (∀ cs : List Char, crAlwaysLf cs = true → '\r' ∉ normalize_content cs) := by
  refine ⟨?_, ?_, ?_⟩
  · intro cs hb hc
    unfold normalize_content stripLeadingBoms
    rw [if_neg hb]
    exact replaceCrlf_eq_self_of_not_hasCrlf cs hc
  · intro cs
    exact replaceCrlf_head_ne_bom _ (stripLeadingBoms_head_ne_bom cs)
  · intro cs h
    unfold normalize_content
    apply replaceCrlf_no_cr
    unfold stripLeadingBoms
    split
    · exact crAlwaysLf_dropWhile_bom cs h
    · exact h

/-- Witness for C7 at concrete inputs: "a\n" is already normalized and is
returned unchanged, and "a\r\nb" loses its carriage return. -/
theorem c7_normalize_spec_witness :
    normalize_content ['a', '\n'] = ['a', '\n'] ∧
    '\r' ∉ normalize_content ['a', '\r', '\n', 'b'] :=
  ⟨c7_normalize_spec.1 ['a', '\n'] (by decide) (by decide),
   c7_normalize_spec.2.2 ['a', '\r', '\n', 'b'] (by decide)⟩

/-! ## Index and budget-sum lemmas (used by C5) -/

/-- Helper: unpacking a loadable index. -/
theorem loadAt_isSome_elim (cands : List (String × List UInt8)) (excl : Bool) (i : Nat)
    (h : (loadAt cands excl i).isSome = true) :
    ∃ cand content, cands[i]? = some cand ∧ loadContent cand.2 excl = some content ∧
      loadAt cands excl i = some content := by
  unfold loadAt at *
  cases hget : cands[i]? with
  | none => rw [hget] at h; simp at h
  | some cand =>
    rw [hget] at h
    cases hl : loadContent cand.2 excl with
    | none => rw [Option.some_bind, hl] at h; simp at h
    | some content => exact ⟨cand, content, rfl, hl, by rw [Option.some_bind, hl]⟩

/-- Helper: a loadable index is in range. -/
theorem loadAt_isSome_lt (cands : List (String × List UInt8)) (excl : Bool) (i : Nat)
    (h : (loadAt cands excl i).isSome = true) : i < cands.length := by
  obtain ⟨cand, content, hget, -, -⟩ := loadAt_isSome_elim cands excl i h
  by_contra hge
  rw [List.getElem?_eq_none (by omega)] at hget
  exact Option.noConfusion hget

/-- Helper: membership in the loadable-index list. -/
theorem mem_loadableIdx (cands : List (String × List UInt8)) (excl : Bool) (i : Nat) :
    i ∈ loadableIdx cands excl ↔ (loadAt cands excl i).isSome = true := by
  unfold loadableIdx
  rw [List.mem_filter, List.mem_range]
  constructor
  · exact fun h => h.2
  · exact fun h => ⟨loadAt_isSome_lt cands excl i h, h⟩

/-- Helper: the loadable indices are distinct. -/
theorem loadableIdx_nodup (cands : List (String × List UInt8)) (excl : Bool) :
    (loadableIdx cands excl).Nodup :=
  (List.nodup_range _).filter _

/-- Helper: the cost sum over a duplicate-free sublist is bounded by the cost
sum over any duplicate-free superlist. -/
theorem nodup_subset_sum_le (g : Nat → Nat) (adm idx : List Nat)
    (h1 : adm.Nodup) (h2 : idx.Nodup) (hsub : ∀ j ∈ adm, j ∈ idx) :
    (adm.map g).sum ≤ (idx.map g).sum := by
  have hfin : adm.toFinset ⊆ idx.toFinset := by
    intro a ha
    rw [List.mem_toFinset] at ha ⊢
    exact hsub a ha
  calc (adm.map g).sum = adm.toFinset.sum g := (List.sum_toFinset g h1).symm
  _ ≤ idx.toFinset.sum g := Finset.sum_le_sum_of_subset hfin
  _ = (idx.map g).sum := List.sum_toFinset g h2

/-! ## Parallel-extraction step lemmas (used by C5) -/

/-- Helper: a check event never changes the admitted collection. -/
theorem parStep_check_admitted (cands : List (String × List UInt8)) (excl : Bool)
    (maxB : Nat) (maxT : Option Nat) (s : ParState) (i : Nat) :
    (parStep cands excl maxB maxT s (Ev.check i)).admitted = s.admitted := by
  cases hget : loadAt cands excl i with
  | none => simp only [parStep, hget]
  | some content =>
    simp only [parStep, hget]
    split
    · rfl
    · split <;> rfl

/-- Helper: a commit event never changes the passed collection. -/
theorem parStep_commit_passed (cands : List (String × List UInt8)) (excl : Bool)
    (maxB : Nat) (maxT : Option Nat) (s : ParState) (i : Nat) :
    (parStep cands excl maxB maxT s (Ev.commit i)).passed = s.passed := by
  rw [parStep]
  split
  · cases hget : loadAt cands excl i with
    | none => simp only [hget]
    | some content => simp only [hget]
  · rfl

/-- Helper: the passed collection only grows. -/
theorem parStep_passed_mono (cands : List (String × List UInt8)) (excl : Bool)
    (maxB : Nat) (maxT : Option Nat) (s : ParState) (e : Ev) :
    s.passed ⊆ (parStep cands excl maxB maxT s e).passed := by
  cases e with
  | check i =>
    cases hget : loadAt cands excl i with
    | none => simp only [parStep, hget]; exact List.Subset.refl _
    | some content =>
      simp only [parStep, hget]
      split
      · exact List.Subset.refl _
      · split
        · exact List.Subset.refl _
        · exact List.subset_cons_self _ _
  | commit i =>
    rw [parStep_commit_passed]
    exact List.Subset.refl _

/-- Helper: the admitted collection only grows. -/
theorem parStep_admitted_mono (cands : List (String × List UInt8)) (excl : Bool)
    (maxB : Nat) (maxT : Option Nat) (s : ParState) (e : Ev) :
    s.admitted ⊆ (parStep cands excl maxB maxT s e).admitted := by
  cases e with
  | check i =>
    rw [parStep_check_admitted]
    exact List.Subset.refl _
  | commit i =>
    rw [parStep]
    split
    · cases hget : loadAt cands excl i with
      | none => simp only [hget]; exact List.Subset.refl _
      | some content => simp only [hget]; exact List.subset_append_left _ _
    · exact List.Subset.refl _

/-- Helper: passed indices survive any run suffix. -/
theorem runFold_passed_mono (cands : List (String × List UInt8)) (excl : Bool)
    (maxB : Nat) (maxT : Option Nat) :
    ∀ (l : List Ev) (s : ParState),
      s.passed ⊆ (l.foldl (parStep cands excl maxB maxT) s).passed
  | [], s => List.Subset.refl _
  | e :: rest, s => by
    rw [List.foldl_cons]
    exact (parStep_passed_mono cands excl maxB maxT s e).trans
      (runFold_passed_mono cands excl maxB maxT rest _)

/-- Helper: admitted indices survive any run suffix. -/
theorem runFold_admitted_mono (cands : List (String × List UInt8)) (excl : Bool)
    (maxB : Nat) (maxT : Option Nat) :
    ∀ (l : List Ev) (s : ParState),
      s.admitted ⊆ (l.foldl (parStep cands excl maxB maxT) s).admitted
  | [], s => List.Subset.refl _
  | e :: rest, s => by
    rw [List.foldl_cons]
    exact (parStep_admitted_mono cands excl maxB maxT s e).trans
      (runFold_admitted_mono cands excl maxB maxT rest _)

/-- Helper: the initial extraction state satisfies the invariant. -/
theorem parInit_inv (cands : List (String × List UInt8)) (excl : Bool) :
    ParInv cands excl parInit := by
  refine ⟨List.nodup_nil, ?_, ?_, rfl, rfl⟩
  · intro i hi
    exact absurd hi (List.not_mem_nil i)
  · intro i hi
    exact absurd hi (List.not_mem_nil i)

/-- Helper: every step preserves the extraction invariant. -/
theorem parStep_inv (cands : List (String × List UInt8)) (excl : Bool)
    (maxB : Nat) (maxT : Option Nat) (s : ParState) (e : Ev)
    (h : ParInv cands excl s) : ParInv cands excl (parStep cands excl maxB maxT s e) := by
  obtain ⟨hnd, hadm, hpass, hsz, htk⟩ := h
  cases e with
  | check i =>
    cases hload : loadAt cands excl i with
    | none => simp only [parStep, hload]; exact ⟨hnd, hadm, hpass, hsz, htk⟩
    | some content =>
      simp only [parStep, hload]
      split
      · exact ⟨hnd, hadm, hpass, hsz, htk⟩
      · split
        · exact ⟨hnd, hadm, hpass, hsz, htk⟩
        · refine ⟨hnd, hadm, ?_, hsz, htk⟩
          intro j hj
          rcases List.mem_cons.mp hj with rfl | hj'
          · rw [hload]; rfl
          · exact hpass j hj'
  | commit i =>
    rw [parStep]
    split
    · rename_i hguard
      cases hload : loadAt cands excl i with
      | none => simp only [hload]; exact ⟨hnd, hadm, hpass, hsz, htk⟩
      | some content =>
        simp only [hload]
        refine ⟨?_, ?_, hpass, ?_, ?_⟩
        · simp only [List.nodup_append, List.nodup_singleton, true_and]
          exact ⟨hnd, by simpa using hguard.2⟩
        · intro j hj
          rcases List.mem_append.mp hj with hj' | hj'
          · exact hadm j hj'
          · rw [List.mem_singleton.mp hj', hload]; rfl
        · simp only [List.map_append, List.sum_append, List.map_singleton,
            List.sum_singleton]
          rw [hsz]
          congr 1
          rw [costAt, hload]
        · simp only [List.map_append, List.sum_append, List.map_singleton,
            List.sum_singleton]
          rw [htk]
          congr 1
          rw [costAt, hload]
    · exact ⟨hnd, hadm, hpass, hsz, htk⟩

/-- Helper: the invariant holds after any run. -/
theorem runFold_inv (cands : List (String × List UInt8)) (excl : Bool)
    (maxB : Nat) (maxT : Option Nat) :
    ∀ (l : List Ev) (s : ParState), ParInv cands excl s →
      ParInv cands excl (l.foldl (parStep cands excl maxB maxT) s)
  | [], s, h => h
  | e :: rest, s, h => by
    rw [List.foldl_cons]
    exact runFold_inv cands excl maxB maxT rest _ (parStep_inv cands excl maxB maxT s e h)

/-- Helper: when the whole loadable set fits in both budgets, a check event
for a loadable candidate marks it passed (unless it is already admitted). -/
theorem parStep_check_pass (cands : List (String × List UInt8)) (excl : Bool)
    (maxB : Nat) (maxT : Option Nat) (s : ParState) (i : Nat)
    (hinv : ParInv cands excl s)
    (hload : (loadAt cands excl i).isSome = true)
    (HB : ((loadableIdx cands excl).map (costAt cands excl utf8Len)).sum ≤ maxB)
    (HT : ∀ m, maxT = some m →
      ((loadableIdx cands excl).map (costAt cands excl estimate_tokens)).sum ≤ m) :
    i ∈ (parStep cands excl maxB maxT s (Ev.check i)).passed ∨
    i ∈ (parStep cands excl maxB maxT s (Ev.check i)).admitted := by
  obtain ⟨hnd, hadm, hpass, hsz, htk⟩ := hinv
  obtain ⟨content, hload'⟩ := Option.isSome_iff_exists.mp hload
  by_cases hiadm : i ∈ s.admitted
  · right
    rw [parStep_check_admitted]
    exact hiadm
  · left
    simp only [parStep, hload']
    have hsub : ∀ g : List Char → Nat,
        costAt cands excl g i + (s.admitted.map (costAt cands excl g)).sum ≤
        ((loadableIdx cands excl).map (costAt cands excl g)).sum := by
      intro g
      have h1 : (i :: s.admitted).Nodup := List.nodup_cons.mpr ⟨hiadm, hnd⟩
      have h2 := nodup_subset_sum_le (costAt cands excl g) (i :: s.admitted)
        (loadableIdx cands excl) h1 (loadableIdx_nodup cands excl) ?_
      · simpa using h2
      · intro j hj
        rcases List.mem_cons.mp hj with rfl | hj'
        · exact (mem_loadableIdx cands excl j).mpr hload
        · exact (mem_loadableIdx cands excl j).mpr (hadm j hj')
    have hcostsz : costAt cands excl utf8Len i = utf8Len content := by
      rw [costAt, hload']
    have hcosttk : costAt cands excl estimate_tokens i = estimate_tokens content := by
      rw [costAt, hload']
    have hb : ¬ (s.totalSize + utf8Len content > maxB) := by
      have h3 := (hsub utf8Len).trans HB
      rw [hcostsz] at h3
      rw [hsz]
      omega
    rw [if_neg hb]
    have ht : ¬ (tokenOver maxT s.totalTokens (estimate_tokens content) = true) := by
      cases maxT with
      | none => simp [tokenOver]
      | some m =>
        have h3 := (hsub estimate_tokens).trans (HT m rfl)
        rw [hcosttk] at h3
        simp only [tokenOver, decide_eq_true_eq, gt_iff_lt, not_lt]
        rw [htk]
        omega
    rw [if_neg ht]
    exact List.mem_cons_self _ _

/-- Helper: a commit event admits a candidate that has passed its check (or
was already admitted). -/
theorem parStep_commit_admit (cands : List (String × List UInt8)) (excl : Bool)
    (maxB : Nat) (maxT : Option Nat) (s : ParState) (i : Nat)
    (hload : (loadAt cands excl i).isSome = true)
    (h : i ∈ s.passed ∨ i ∈ s.admitted) :
    i ∈ (parStep cands excl maxB maxT s (Ev.commit i)).admitted := by
  obtain ⟨content, hload'⟩ := Option.isSome_iff_exists.mp hload
  rw [parStep]
  split
  · simp only [hload']
    exact List.mem_append.mpr (Or.inr (List.mem_singleton.mpr rfl))
  · rename_i hguard
    rcases h with hp | ha
    · by_cases hia : i ∈ s.admitted
      · exact hia
      · exact absurd ⟨hp, hia⟩ hguard
    · exact ha

/-- Helper: every loadable candidate whose check precedes its commit in the
schedule ends up admitted, when the loadable set fits in both budgets. -/
theorem run_admits (cands : List (String × List UInt8)) (excl : Bool)
    (maxB : Nat) (maxT : Option Nat) (sched : List Ev) (i : Nat)
    (hload : (loadAt cands excl i).isSome = true)
    (HB : ((loadableIdx cands excl).map (costAt cands excl utf8Len)).sum ≤ maxB)
    (HT : ∀ m, maxT = some m →
      ((loadableIdx cands excl).map (costAt cands excl estimate_tokens)).sum ≤ m)
    (hsplit : ∃ l1 l2 l3, sched = l1 ++ Ev.check i :: l2 ++ Ev.commit i :: l3) :
    i ∈ (parRun cands excl maxB maxT sched).admitted := by
  obtain ⟨l1, l2, l3, rfl⟩ := hsplit
  unfold parRun
  rw [List.foldl_append, List.foldl_cons, List.foldl_append, List.foldl_cons]
  have hinv1 : ParInv cands excl (l1.foldl (parStep cands excl maxB maxT) parInit) :=
    runFold_inv cands excl maxB maxT l1 parInit (parInit_inv cands excl)
  have hcheck := parStep_check_pass cands excl maxB maxT
    (l1.foldl (parStep cands excl maxB maxT) parInit) i hinv1 hload HB HT
  have h3 : i ∈ (l2.foldl (parStep cands excl maxB maxT)
        (parStep cands excl maxB maxT (l1.foldl (parStep cands excl maxB maxT) parInit)
          (Ev.check i))).passed ∨
      i ∈ (l2.foldl (parStep cands excl maxB maxT)
        (parStep cands excl maxB maxT (l1.foldl (parStep cands excl maxB maxT) parInit)
          (Ev.check i))).admitted := by
    rcases hcheck with h | h
    · exact Or.inl (runFold_passed_mono cands excl maxB maxT l2 _ h)
    · exact Or.inr (runFold_admitted_mono cands excl maxB maxT l2 _ h)
  have h4 := parStep_commit_admit cands excl maxB maxT _ i hload h3
  exact runFold_admitted_mono cands excl maxB maxT l3 _ h4

/-! ## Sequential characterization and index bridges (used by C5) -/

/-- Helper: with both budgets large enough for everything that loads, the
sequential loop admits exactly the loadable candidates, in order. -/
theorem seqAdmitGo_all (excl : Bool) (maxB : Nat) (maxT : Option Nat) :
    ∀ (cands : List (String × List UInt8)) (ts tt : Nat),
      ts + ((cands.filterMap (loadPair excl)).map (fun pc => utf8Len pc.2)).sum ≤ maxB →
      (∀ m, maxT = some m →
        tt + ((cands.filterMap (loadPair excl)).map
          (fun pc => estimate_tokens pc.2)).sum ≤ m) →
      seqAdmitGo excl maxB maxT cands ts tt = cands.filterMap (loadPair excl)
  | [], ts, tt, _, _ => by simp [seqAdmitGo]
  | (path, bytes) :: rest, ts, tt, hB, hT => by
    rw [seqAdmitGo]
    cases hl : loadContent bytes excl with
    | none =>
      have hpair : loadPair excl (path, bytes) = none := by simp [loadPair, hl]
      rw [List.filterMap_cons_none hpair] at hB hT ⊢
      exact seqAdmitGo_all excl maxB maxT rest ts tt hB hT
    | some content =>
      have hpair : loadPair excl (path, bytes) = some (path, content) := by
        simp [loadPair, hl]
      rw [List.filterMap_cons_some hpair] at hB hT ⊢
      simp only [List.map_cons, List.sum_cons] at hB hT
      have hb : ¬ (ts + utf8Len content > maxB) := by omega
      dsimp only
      rw [if_neg hb]
      have ht : ¬ (tokenOver maxT tt (estimate_tokens content) = true) := by
        cases maxT with
        | none => simp [tokenOver]
        | some m =>
          have := hT m rfl
          simp only [tokenOver, decide_eq_true_eq, gt_iff_lt, not_lt]
          omega
      rw [if_neg ht]
      congr 1
      refine seqAdmitGo_all excl maxB maxT rest (ts + utf8Len content)
        (tt + estimate_tokens content) (by omega) ?_
      intro m hm
      have := hT m hm
      omega

/-- Helper: loading shifts across a cons. -/
theorem loadAt_cons_zero (cand : String × List UInt8) (cands : List (String × List UInt8))
    (excl : Bool) : loadAt (cand :: cands) excl 0 = loadContent cand.2 excl := by
  simp [loadAt]

/-- Helper: loading shifts across a cons, successor case. -/
theorem loadAt_cons_succ (cand : String × List UInt8) (cands : List (String × List UInt8))
    (excl : Bool) (i : Nat) : loadAt (cand :: cands) excl (i + 1) = loadAt cands excl i := by
  simp [loadAt]

/-- Helper: the loadable indices of a cons. -/
theorem loadableIdx_cons (cand : String × List UInt8) (cands : List (String × List UInt8))
    (excl : Bool) :
    loadableIdx (cand :: cands) excl =
      (if (loadContent cand.2 excl).isSome = true then [0] else []) ++
        (loadableIdx cands excl).map Nat.succ := by
  unfold loadableIdx
  rw [List.length_cons, List.range_succ_eq_map, List.filter_cons, List.filter_map]
  have hpred : ((fun i => (loadAt (cand :: cands) excl i).isSome) ∘ Nat.succ) =
      (fun i => (loadAt cands excl i).isSome) := by
    funext i
    simp only [Function.comp_apply]
    rw [loadAt_cons_succ]
  rw [hpred, loadAt_cons_zero]
  split
  · rfl
  · rfl

/-- Helper: costs indexed over the loadable indices sum to the costs of the
loaded files. -/
theorem sum_cost_loadableIdx (g : List Char → Nat) :
    ∀ (cands : List (String × List UInt8)) (excl : Bool),
      ((loadableIdx cands excl).map (costAt cands excl g)).sum =
        ((cands.filterMap (loadPair excl)).map (fun pc => g pc.2)).sum
  | [], excl => by simp [loadableIdx]
  | cand :: rest, excl => by
    rw [loadableIdx_cons, List.map_append, List.sum_append]
    have hmapmap : ((loadableIdx rest excl).map Nat.succ).map (costAt (cand :: rest) excl g) =
        (loadableIdx rest excl).map (costAt rest excl g) := by
      rw [List.map_map]
      apply List.map_congr_left
      intro i hi
      simp only [Function.comp_apply]
      rw [costAt, costAt, loadAt_cons_succ]
    rw [hmapmap, sum_cost_loadableIdx g rest excl]
    cases hl : loadContent cand.2 excl with
    | none =>
      have hpair : loadPair excl cand = none := by simp [loadPair, hl]
      rw [List.filterMap_cons_none hpair]
      simp
    | some content =>
      have hpair : loadPair excl cand = some (cand.1, content) := by simp [loadPair, hl]
      rw [List.filterMap_cons_some hpair]
      simp only [Option.isSome_some, if_true, List.map_cons, List.map_nil, List.sum_cons,
        List.sum_nil]
      have hc0 : costAt (cand :: rest) excl g 0 = g content := by
        rw [costAt, loadAt_cons_zero, hl]
      rw [hc0]
      omega

/-- Helper: collecting the loaded pairs by loadable index equals filtering
the candidate list itself. -/
theorem filterMap_pairAt (excl : Bool) :
    ∀ cands : List (String × List UInt8),
      (loadableIdx cands excl).filterMap (fun i => (cands[i]?).bind (loadPair excl)) =
        cands.filterMap (loadPair excl)
  | [] => by simp [loadableIdx]
  | cand :: rest => by
    rw [loadableIdx_cons, List.filterMap_append, List.filterMap_map]
    have hpred : ((fun i => ((cand :: rest)[i]?).bind (loadPair excl)) ∘ Nat.succ) =
        (fun i => (rest[i]?).bind (loadPair excl)) := by
      funext i
      simp
    rw [hpred, filterMap_pairAt excl rest]
    cases hl : loadContent cand.2 excl with
    | none =>
      have hpair : loadPair excl cand = none := by simp [loadPair, hl]
      rw [List.filterMap_cons_none hpair]
      simp
    | some content =>
      have hpair : loadPair excl cand = some (cand.1, content) := by simp [loadPair, hl]
      rw [List.filterMap_cons_some hpair]
      simp only [Option.isSome_some, if_true]
      rw [List.filterMap_cons, List.getElem?_cons_zero, Option.some_bind, hpair]
      simp

/-- Helper: loading preserves the path, so any pairwise path relation (in
particular strict path-order sortedness) survives the load filter. -/
theorem pairwise_lt_filterMap_loadPair (excl : Bool) (r : String → String → Prop) :
    ∀ cands : List (String × List UInt8),
      cands.Pairwise (fun a b => r a.1 b.1) →
      (cands.filterMap (loadPair excl)).Pairwise (fun a b => r a.1 b.1)
  | [], _ => List.Pairwise.nil
  | cand :: rest, h => by
    rw [List.pairwise_cons] at h
    cases hl : loadPair excl cand with
    | none =>
      rw [List.filterMap_cons_none hl]
      exact pairwise_lt_filterMap_loadPair excl r rest h.2
    | some y =>
      rw [List.filterMap_cons_some hl]
      rw [List.pairwise_cons]
      refine ⟨?_, pairwise_lt_filterMap_loadPair excl r rest h.2⟩
      intro z hz
      obtain ⟨b, hb, hzb⟩ := List.mem_filterMap.mp hz
      have hy1 : y.1 = cand.1 := by
        unfold loadPair at hl
        obtain ⟨c, -, heq⟩ := Option.map_eq_some'.mp hl
        rw [← heq]
      have hz1 : z.1 = b.1 := by
        unfold loadPair at hzb
        obtain ⟨c, -, heq⟩ := Option.map_eq_some'.mp hzb
        rw [← heq]
      rw [hy1, hz1]
      exact h.1 b hb

/-! ## Classifier and load helpers (used by C3 and C10) -/

/-- Helper: the classifier only looks at the first 1024 bytes. -/
theorem is_likely_binary_take_1024 (bs : List UInt8) :
    is_likely_binary bs = is_likely_binary (bs.take 1024) := by
  unfold is_likely_binary
  rw [List.take_take]
  norm_num

/-- Helper: a null byte in the sample forces the binary classification. -/
theorem is_likely_binary_of_null (bs : List UInt8) (h : (0 : UInt8) ∈ bs.take 1024) :
    is_likely_binary bs = true := by
  unfold is_likely_binary
  simp only [decide_eq_true_eq]
  left
  rw [List.countP_pos_iff]
  exact ⟨0, h, by simp⟩

/-- Helper: a candidate whose bytes do not decode never loads. -/
theorem loadContent_none_of_decode_fail (bytes : List UInt8) (excl : Bool)
    (h : utf8Decode bytes = none) : loadContent bytes excl = none := by
  unfold loadContent process_single_file
  rw [h]
  by_cases hb : is_likely_binary bytes = true <;> simp [hb]

/-- Helper: every admitted entry of the sequential loop originates from a
candidate whose bytes load to that content. -/
theorem seqAdmitGo_mem_src (excl : Bool) (maxB : Nat) (maxT : Option Nat) :
    ∀ (cands : List (String × List UInt8)) (ts tt : Nat) (p : String) (content : List Char),
      (p, content) ∈ seqAdmitGo excl maxB maxT cands ts tt →
      ∃ bytes, (p, bytes) ∈ cands ∧ loadContent bytes excl = some content
  | [], ts, tt, p, content => by simp [seqAdmitGo]
  | (q, bytes) :: rest, ts, tt, p, content => by
    rw [seqAdmitGo]
    cases hl : loadContent bytes excl with
    | none =>
      intro hmem
      obtain ⟨b, hb, hlb⟩ := seqAdmitGo_mem_src excl maxB maxT rest ts tt p content hmem
      exact ⟨b, List.mem_cons_of_mem _ hb, hlb⟩
    | some c =>
      simp only
      split
      · intro hmem
        obtain ⟨b, hb, hlb⟩ := seqAdmitGo_mem_src excl maxB maxT rest ts tt p content hmem
        exact ⟨b, List.mem_cons_of_mem _ hb, hlb⟩
      · split
        · intro hmem
          obtain ⟨b, hb, hlb⟩ := seqAdmitGo_mem_src excl maxB maxT rest ts tt p content hmem
          exact ⟨b, List.mem_cons_of_mem _ hb, hlb⟩
        · intro hmem
          rcases List.mem_cons.mp hmem with heq | hmem'
          · rw [Prod.mk.injEq] at heq
            obtain ⟨rfl, rfl⟩ := heq
            exact ⟨bytes, List.mem_cons_self _ _, hl⟩
          · obtain ⟨b, hb, hlb⟩ := seqAdmitGo_mem_src excl maxB maxT rest _ _ p content hmem'
            exact ⟨b, List.mem_cons_of_mem _ hb, hlb⟩

/-- Helper: every admitted entry of the parallel extraction originates from a
candidate whose bytes load to that content. -/
theorem parResult_mem_src (cands : List (String × List UInt8)) (excl : Bool)
    (maxB : Nat) (maxT : Option Nat) (sched : List Ev) (p : String) (content : List Char)
    (hmem : (p, content) ∈ parResult cands excl maxB maxT sched) :
    ∃ bytes, (p, bytes) ∈ cands ∧ loadContent bytes excl = some content := by
  unfold parResult at hmem
  rw [(sortByKey_perm (fun pr : String × List Char => pathKey pr.1) _).mem_iff] at hmem
  rw [List.mem_filterMap] at hmem
  obtain ⟨i, -, hbind⟩ := hmem
  rw [Option.bind_eq_some] at hbind
  obtain ⟨cand, hget, hload⟩ := hbind
  unfold loadPair at hload
  rw [Option.map_eq_some'] at hload
  obtain ⟨c, hc, heq⟩ := hload
  rw [Prod.mk.injEq] at heq
  obtain ⟨h1, rfl⟩ := heq
  refine ⟨cand.2, ?_, hc⟩
  have hmem2 : cand ∈ cands := List.getElem?_mem hget
  have hmem3 : (cand.1, cand.2) ∈ cands := by rwa [Prod.mk.eta]
  rwa [h1] at hmem3

/-- Helper: in a list of pairwise-distinct-path pairs, a path determines its
payload. -/
theorem payload_unique {β : Type} :
    ∀ (l : List (String × β)), l.Pairwise (fun a b => a.1 ≠ b.1) →
      ∀ (p : String) (x y : β), (p, x) ∈ l → (p, y) ∈ l → x = y
  | [], _, p, x, y, hx, _ => by simp at hx
  | (q, z) :: rest, h, p, x, y, hx, hy => by
    rw [List.pairwise_cons] at h
    rcases List.mem_cons.mp hx with hx1 | hx1 <;> rcases List.mem_cons.mp hy with hy1 | hy1
    · rw [Prod.mk.injEq] at hx1 hy1
      rw [hx1.2, hy1.2]
    · rw [Prod.mk.injEq] at hx1
      exact absurd hx1.1.symm (h.1 (p, y) hy1)
    · rw [Prod.mk.injEq] at hy1
      exact absurd hy1.1.symm (h.1 (p, x) hx1)
    · exact payload_unique rest h.2 p x y hx1 hy1

/-! ## C3: binary classification and exclusion -/

/-- Claim C3, counterexample: the bytes 97 0 98 ("a", NUL, "b") are valid
UTF-8, so `read_to_string` succeeds and `is_likely_binary` is never
consulted (it only runs when decoding fails): the file IS admitted, with the
NUL in its content, although its first 1024 bytes contain a null byte. -/
theorem c3_counterexample :
    process_single_file [97, 0, 98] false = .admitted ['a', '\x00', 'b'] ∧
    (0 : UInt8) ∈ ([97, 0, 98] : List UInt8).take 1024 ∧
    seqAdmit [("b.bin", [97, 0, 98])] false 1000000 none =
      [("b.bin", ['a', '\x00', 'b'])] := by
  decide

/-- Claim C3 (corrected): only a file whose bytes FAIL UTF-8 decoding is ever
classified by the byte sampler; for such a file a null byte among the first
1024 bytes forces the skip outcome, and (with pairwise-distinct candidate
paths) the file is excluded from both the sequential and the parallel
admitted set regardless of budget.  The classifier itself samples at most
the first 1024 bytes, reports binary on any null byte, and also reports
binary when the control-character proportion among sampled bytes
exceeds 30%. -/
theorem c3_binary_exclusion :
    (∀ (bytes : List UInt8) (excl : Bool), utf8Decode bytes = none →
      (0 : UInt8) ∈ bytes.take 1024 → process_single_file bytes excl = .skipped) ∧
    (∀ bytes : List UInt8, (0 : UInt8) ∈ bytes.take 1024 → is_likely_binary bytes = true) ∧
    (∀ bytes : List UInt8, is_likely_binary bytes = is_likely_binary (bytes.take 1024)) ∧
    (∀ bytes : List UInt8,
      3 * (bytes.take 1024).length <
        10 * (bytes.take 1024).countP
          (fun b => decide (b.toNat < 32 ∧ b.toNat ≠ 9 ∧ b.toNat ≠ 10 ∧ b.toNat ≠ 13)) →
      is_likely_binary bytes = true) ∧
    (∀ (cands : List (String × List UInt8)) (excl : Bool) (maxB : Nat) (maxT : Option Nat)
      (p : String) (bytes : List UInt8) (content : List Char),
      cands.Pairwise (fun a b => a.1 ≠ b.1) → (p, bytes) ∈ cands → utf8Decode bytes = none →
      (p, content) ∉ seqAdmit cands excl maxB maxT ∧
      ∀ sched : List Ev, (p, content) ∉ parResult cands excl maxB maxT sched) := by
  refine ⟨?_, is_likely_binary_of_null, is_likely_binary_take_1024, ?_, ?_⟩
  · intro bytes excl hdec hnull
    unfold process_single_file
    rw [hdec, is_likely_binary_of_null bytes hnull]
    rfl
  · intro bytes h
    unfold is_likely_binary
    simp only [decide_eq_true_eq]
    exact Or.inr h
  · intro cands excl maxB maxT p bytes content hpw hmem hdec
    constructor
    · intro habs
      obtain ⟨b, hb, hlb⟩ := seqAdmitGo_mem_src excl maxB maxT cands 0 0 p content habs
      have : b = bytes := payload_unique cands hpw p b bytes hb hmem
      rw [this, loadContent_none_of_decode_fail bytes excl hdec] at hlb
      exact Option.noConfusion hlb
    · intro sched habs
      obtain ⟨b, hb, hlb⟩ := parResult_mem_src cands excl maxB maxT sched p content habs
      have : b = bytes := payload_unique cands hpw p b bytes hb hmem
      rw [this, loadContent_none_of_decode_fail bytes excl hdec] at hlb
      exact Option.noConfusion hlb

/-- Witness for C3 at concrete inputs: the invalid-UTF-8 bytes 255 0 are
skipped as binary, and a lone null byte classifies as binary. -/
theorem c3_binary_exclusion_witness :
    process_single_file [0xFF, 0x00] false = .skipped ∧
    is_likely_binary [0x00] = true :=
  ⟨c3_binary_exclusion.1 [0xFF, 0x00] false (by decide) (by decide),
   c3_binary_exclusion.2.1 [0x00] (by decide)⟩

/-! ## C1: budget accounting under the parallel race -/

/-- Claim C1 (the code violates it): with two 10-byte candidates and a
15-byte budget, the interleaving in which both workers pass their budget
check before either commits admits BOTH files and drives the byte total to
20 > 15 — the check and the commit are not one atomic step, so a run can
exceed the configured maximum.  The sequential loop on the same input stays
within budget, admitting only the first file. -/
theorem c1_race_evaluation :
    (parRun [("a.txt", List.replicate 10 97), ("b.txt", List.replicate 10 97)] false 15 none
      [Ev.check 0, Ev.check 1, Ev.commit 0, Ev.commit 1]).totalSize = 20 ∧
    (parRun [("a.txt", List.replicate 10 97), ("b.txt", List.replicate 10 97)] false 15 none
      [Ev.check 0, Ev.check 1, Ev.commit 0, Ev.commit 1]).admitted = [0, 1] ∧
    15 < 20 ∧
    seqAdmit [("a.txt", List.replicate 10 97), ("b.txt", List.replicate 10 97)] false 15 none =
      [("a.txt", List.replicate 10 'a')] := by
  decide

/-! ## C4: output chunking -/

/-- Helper: `chunkGo` concatenates back to its input. -/
theorem chunkGo_join {α : Type} (n : Nat) (hn : 1 ≤ n) :
    ∀ (l cur : List α), cur.length < n → (chunkGo n l cur).flatten = cur ++ l
  | [], cur, _ => by
    rw [chunkGo]
    split
    · rename_i hcur
      rw [List.isEmpty_iff] at hcur
      simp [hcur]
    · simp
  | x :: xs, cur, hcur => by
    rw [chunkGo]
    split
    · have h0 : ([] : List α).length < n := by
        simp only [List.length_nil]
        omega
      rw [List.flatten_cons, chunkGo_join n hn xs [] h0]
      simp
    · rename_i hne
      have hlen : (cur ++ [x]).length < n := by
        simp only [List.length_append, List.length_singleton]
        omega
      rw [chunkGo_join n hn xs (cur ++ [x]) hlen]
      simp

/-- Helper: chunking with a positive size splits exactly. -/
theorem chunksOf_join {α : Type} (n : Nat) (hn : 1 ≤ n) (l : List α) :
    (chunksOf n l).flatten = l :=
  chunkGo_join n hn l [] (by simpa using hn)

/-- Helper: when every chunk of the content is valid UTF-8 on its own, the
written chunks concatenate back to the content. -/
theorem write_output_chunks_exact (content : List UInt8) (n : Nat) (hn : 1 ≤ n)
    (h : ∀ c ∈ chunksOf n content, (utf8Decode c).isSome = true) :
    (write_output_chunks content n).flatten = content := by
  unfold write_output_chunks
  split
  · simp
  · rw [List.map_congr_left (fun c hc => by rw [if_pos (h c hc)]), List.map_id']
    exact chunksOf_join n hn content

/-- Claim C4 (the code violates it): chunking the valid UTF-8 artifact
"aé" (bytes 97 195 169) at chunk size 2 splits the two-byte encoding of é
across the chunk boundary; `from_utf8(chunk).unwrap_or("")` maps BOTH chunks
to the empty string, so the files written are empty and their concatenation
is not the original artifact. -/
theorem c4_chunk_corruption :
    utf8Decode [0x61, 0xC3, 0xA9] = some ['a', 'é'] ∧
    write_output_chunks [0x61, 0xC3, 0xA9] 2 = [[], []] ∧
    (write_output_chunks [0x61, 0xC3, 0xA9] 2).flatten ≠ [0x61, 0xC3, 0xA9] := by
  decide

/-! ## C8: candidate union and ordering -/

/-- Claim C8, counterexample: the code sorts `PathBuf`s, and Rust compares
paths COMPONENT-WISE, not as flat strings.  With candidates "src.rs" and
"src/main.rs", the component comparison puts "src/main.rs" first (its first
component "src" is a strict prefix of "src.rs"), while path-STRING
lexicographic order puts "src.rs" first (the byte of the dot, 0x2E, is below
the byte of the slash, 0x2F).  The produced candidate list is therefore NOT
sorted lexicographically by path string, refuting the claim as worded. -/
theorem c8_counterexample :
    build_candidates ["src.rs", "src/main.rs"] [] = ["src/main.rs", "src.rs"] ∧
    ("src.rs" : String) < "src/main.rs" ∧
    ¬ (build_candidates ["src.rs", "src/main.rs"] []).Pairwise
      (fun a b => (a : String) ≤ b) := by
  have heq : build_candidates ["src.rs", "src/main.rs"] [] = ["src/main.rs", "src.rs"] :=
    rfl
  have hlt : ("src.rs" : String) < "src/main.rs" := by
    rw [String.lt_iff_toList_lt]
    decide
  refine ⟨heq, hlt, ?_⟩
  intro hp
  rw [heq, List.pairwise_cons] at hp
  have hle := hp.1 "src.rs" (List.mem_singleton_self _)
  exact absurd hle (not_le.mpr hlt)

/-- Claim C8 (amended to the order the code actually sorts by): the
candidate list handed to extraction is sorted by the component-wise path
order of `Path::cmp`, duplicate-free, and contains exactly the union of the
primary walk and the override walk; and the extractor's returned sequence is
sorted in that same path order for EVERY schedule, i.e. regardless of worker
completion order. -/
theorem c8_candidates_sorted :
    (∀ primary overrideAccepted : List String,
      (build_candidates primary overrideAccepted).Pairwise
        (fun a b => pathKey a ≤ pathKey b) ∧
      (build_candidates primary overrideAccepted).Nodup ∧
      (∀ x, x ∈ build_candidates primary overrideAccepted ↔
        x ∈ primary ∨ x ∈ overrideAccepted)) ∧
    (∀ (cands : List (String × List UInt8)) (excl : Bool) (maxB : Nat) (maxT : Option Nat)
      (sched : List Ev),
      (parResult cands excl maxB maxT sched).Pairwise
        (fun a b => pathKey a.1 ≤ pathKey b.1)) := by
  constructor
  · intro primary overrideAccepted
    refine ⟨sortByKey_pairwise pathKey _, ?_, ?_⟩
    · unfold build_candidates
      rw [(sortByKey_perm pathKey _).nodup_iff]
      exact nodup_foldl_insertUnique _ _ (nodup_foldl_insertUnique _ _ List.nodup_nil)
    · intro x
      unfold build_candidates
      rw [(sortByKey_perm pathKey _).mem_iff, mem_foldl_insertUnique, mem_foldl_insertUnique]
      constructor
      · rintro (h | h)
        · rcases h with h | h
          · exact absurd h (List.not_mem_nil x)
          · exact Or.inl h
        · exact Or.inr h
      · rintro (h | h)
        · exact Or.inl (Or.inr h)
        · exact Or.inr h
  · intro cands excl maxB maxT sched
    exact sortByKey_pairwise (fun pr : String × List Char => pathKey pr.1) _

/-- Witness for C8 at a concrete pair of walks: the union of ["b"] and
["a"] is sorted into ["a", "b"] and membership is the union of the walks. -/
theorem c8_candidates_sorted_witness :
    (build_candidates ["b"] ["a"]).Pairwise (fun a b => pathKey a ≤ pathKey b) ∧
    ("a" ∈ build_candidates ["b"] ["a"] ↔
      "a" ∈ (["b"] : List String) ∨ "a" ∈ (["a"] : List String)) :=
  ⟨(c8_candidates_sorted.1 ["b"] ["a"]).1, (c8_candidates_sorted.1 ["b"] ["a"]).2.2 "a"⟩

/-! ## C9: grouping with the JSON layout -/

/-- Helper: no category name contains an opening brace. -/
theorem groupNameOf_no_brace (ext : String) : '{' ∉ (groupNameOf ext).data := by
  unfold groupNameOf
  cases hf : groupTable.find? (fun e => e.1 == ext) with
  | none => decide
  | some a =>
    have ha : a ∈ groupTable := List.mem_of_find?_eq_some hf
    simp only [Option.map_some', Option.getD_some]
    have hall : ∀ x ∈ groupTable, '{' ∉ (x.2 : String).data := by decide
    exact hall a ha

/-- Helper: a bucket in `addToGroups` is the new name or an existing one. -/
theorem addToGroups_names :
    ∀ (gs : List (String × List (String × List Char))) (name : String)
      (file : String × List Char) (g : String × List (String × List Char)),
      g ∈ addToGroups gs name file → g.1 = name ∨ ∃ fs', (g.1, fs') ∈ gs
  | [], name, file, g => by
    intro h
    rw [addToGroups] at h
    rcases List.mem_singleton.mp h with rfl
    exact Or.inl rfl
  | (n, fs) :: rest, name, file, g => by
    intro h
    rw [addToGroups] at h
    split at h
    · rcases List.mem_cons.mp h with rfl | hmem
      · rename_i heq
        exact Or.inl heq
      · exact Or.inr ⟨g.2, by rw [Prod.mk.eta]; exact List.mem_cons_of_mem _ hmem⟩
    · rcases List.mem_cons.mp h with rfl | hmem
      · exact Or.inr ⟨fs, List.mem_cons_self _ _⟩
      · rcases addToGroups_names rest name file g hmem with h1 | ⟨fs', h1⟩
        · exact Or.inl h1
        · exact Or.inr ⟨fs', List.mem_cons_of_mem _ h1⟩

/-- Helper: the grouping fold only creates buckets with category names. -/
theorem foldl_addToGroups_names :
    ∀ (files : List (String × List Char)) (acc : List (String × List (String × List Char))),
      (∀ g ∈ acc, ∃ e, g.1 = groupNameOf e) →
      ∀ g ∈ files.foldl
        (fun gs f => addToGroups gs (groupNameOf ((extensionOf f.1).getD "no-extension")) f)
        acc, ∃ e, g.1 = groupNameOf e
  | [], acc, hacc => hacc
  | f :: rest, acc, hacc => by
    intro g hg
    rw [List.foldl_cons] at hg
    refine foldl_addToGroups_names rest _ ?_ g hg
    intro g'' hg''
    rcases addToGroups_names acc _ f g'' hg'' with h1 | ⟨fs', h1⟩
    · exact ⟨_, h1⟩
    · exact hacc (g''.1, fs') h1

/-- Helper: every bucket name produced by grouping is a category name. -/
theorem group_files_by_type_names (files : List (String × List Char)) :
    ∀ g ∈ group_files_by_type files, ∃ e, g.1 = groupNameOf e := by
  unfold group_files_by_type
  intro g hg
  rw [List.mem_reverse, (sortByKey_perm Prod.fst _).mem_iff] at hg
  exact foldl_addToGroups_names files [] (by simp) g hg

/-- Claim C9 (the code violates it): with grouping enabled and the JSON
layout selected the per-file match arm is empty and the function returns
before the JSON serializer runs, so the rendered output consists of group
headings only — it contains not a single brace, hence no
{path, content, tokens, size} entry for any admitted file; concretely, one
admitted file "a.rs" renders as just a heading. -/
theorem c9_grouped_json_empty :
    (∀ files : List (String × List Char), '{' ∉ (format_output_grouped_json files).data) ∧
    format_output_grouped_json [("a.rs", ['x'])] = "# Rust Source\n\n\n" := by
  constructor
  · intro files
    unfold format_output_grouped_json
    suffices h : ∀ (gs : List (String × List (String × List Char))) (acc : String),
        '{' ∉ acc.data → (∀ g ∈ gs, '{' ∉ (g.1 : String).data) →
        '{' ∉ (gs.foldl (fun out g => out ++ "# " ++ g.1 ++ "\n\n" ++ "\n") acc).data by
      refine h _ "" (by decide) ?_
      intro g hg
      obtain ⟨e, he⟩ := group_files_by_type_names files g hg
      rw [he]
      exact groupNameOf_no_brace e
    intro gs
    induction gs with
    | nil => intro acc hacc _; exact hacc
    | cons g rest ih =>
      intro acc hacc hnames
      rw [List.foldl_cons]
      refine ih _ ?_ (fun g' hg' => hnames g' (List.mem_cons_of_mem _ hg'))
      simp only [String.data_append, List.mem_append]
      rintro ((((h | h) | h) | h) | h)
      · exact hacc h
      · exact absurd h (by decide)
      · exact hnames g (List.mem_cons_self _ _) h
      · exact absurd h (by decide)
      · exact absurd h (by decide)
  · decide

/-! ## C10: classifier totality -/

/-- Claim C10: the binary classifier is a total function on byte sequences
(it is a Lean `def`, total by construction); it returns `false` on the empty
sequence — the null count is 0 and the 0/0 NaN ratio comparison of the source
is false, modelled by `10·0 > 3·0` being false — and it depends only on the
first 1024 bytes of its input. -/
theorem c10_classifier_total :
    is_likely_binary [] = false ∧
    ∀ bs : List UInt8, is_likely_binary bs = is_likely_binary (bs.take 1024) := by
  constructor
  · rfl
  · intro bs
    unfold is_likely_binary
    rw [List.take_take]
    rfl


/-! ## C5: sequential / parallel equivalence -/

/-- Claim C5: for a fixed candidate list (strictly sorted in the
component-wise path order both sorts of the code use, as `main` guarantees)
and a configuration whose byte budget and (when set) token budget
accommodate every file that loads, the sequential admission loop and the
parallel extraction admit exactly the same files in the same final path
ordering — for EVERY schedule (interleaving of per-worker check and commit
events) in which each loadable candidate's check precedes its commit.  Both
equal the loadable candidates in candidate order, so the rendered output,
a function of this list, is identical as well. -/
theorem c5_seq_par_equiv (cands : List (String × List UInt8)) (excl : Bool)
    (maxB : Nat) (maxT : Option Nat) (sched : List Ev)
    (hsorted : cands.Pairwise (fun a b => pathKey a.1 < pathKey b.1))
    (hsize : ((cands.filterMap (loadPair excl)).map (fun pc => utf8Len pc.2)).sum ≤ maxB)
    (htok : ∀ m, maxT = some m →
      ((cands.filterMap (loadPair excl)).map (fun pc => estimate_tokens pc.2)).sum ≤ m)
    (hsched : ∀ i, (loadAt cands excl i).isSome = true →
      ∃ l1 l2 l3, sched = l1 ++ Ev.check i :: l2 ++ Ev.commit i :: l3) :
    parResult cands excl maxB maxT sched = seqAdmit cands excl maxB maxT ∧
    seqAdmit cands excl maxB maxT = cands.filterMap (loadPair excl) := by
  have hseq : seqAdmit cands excl maxB maxT = cands.filterMap (loadPair excl) :=
    seqAdmitGo_all excl maxB maxT cands 0 0 (by simpa using hsize)
      (fun m hm => by simpa using htok m hm)
  refine ⟨?_, hseq⟩
  have HB : ((loadableIdx cands excl).map (costAt cands excl utf8Len)).sum ≤ maxB := by
    rw [sum_cost_loadableIdx]
    exact hsize
  have HT : ∀ m, maxT = some m →
      ((loadableIdx cands excl).map (costAt cands excl estimate_tokens)).sum ≤ m := by
    intro m hm
    rw [sum_cost_loadableIdx]
    exact htok m hm
  have hinv : ParInv cands excl (parRun cands excl maxB maxT sched) := by
    unfold parRun
    exact runFold_inv cands excl maxB maxT sched parInit (parInit_inv cands excl)
  have hcomplete : ∀ i, (loadAt cands excl i).isSome = true →
      i ∈ (parRun cands excl maxB maxT sched).admitted :=
    fun i hi => run_admits cands excl maxB maxT sched i hi HB HT (hsched i hi)
  have hiff : ∀ i, i ∈ (parRun cands excl maxB maxT sched).admitted ↔
      i ∈ loadableIdx cands excl := by
    intro i
    rw [mem_loadableIdx]
    exact ⟨hinv.2.1 i, hcomplete i⟩
  have hperm : (parRun cands excl maxB maxT sched).admitted.Perm (loadableIdx cands excl) := by
    refine List.perm_of_nodup_nodup_toFinset_eq hinv.1 (loadableIdx_nodup cands excl) ?_
    ext a
    rw [List.mem_toFinset, List.mem_toFinset, hiff]
  have hpermpairs :
      ((parRun cands excl maxB maxT sched).admitted.filterMap
        (fun i => (cands[i]?).bind (loadPair excl))).Perm
        (cands.filterMap (loadPair excl)) := by
    have h1 := hperm.filterMap (fun i => (cands[i]?).bind (loadPair excl))
    rw [filterMap_pairAt excl cands] at h1
    exact h1
  have hltL : (cands.filterMap (loadPair excl)).Pairwise
      (fun a b => pathKey a.1 < pathKey b.1) :=
    pairwise_lt_filterMap_loadPair excl (fun a b => pathKey a < pathKey b) cands hsorted
  have hndL : ((cands.filterMap (loadPair excl)).map (fun pc => pathKey pc.1)).Nodup :=
    (List.pairwise_map).mpr (hltL.imp ne_of_lt)
  rw [hseq]
  unfold parResult
  apply eq_of_perm_of_sorted_keys (fun pc : String × List Char => pathKey pc.1)
  · exact (sortByKey_perm (fun pr : String × List Char => pathKey pr.1) _).trans hpermpairs
  · apply pairwise_lt_of_le_of_nodup_keys (fun pc : String × List Char => pathKey pc.1)
      (sortByKey_pairwise (fun pr : String × List Char => pathKey pr.1) _)
    have hmp : ((sortByKey (fun pr : String × List Char => pathKey pr.1)
        ((parRun cands excl maxB maxT sched).admitted.filterMap
          (fun i => (cands[i]?).bind (loadPair excl)))).map
            (fun pc : String × List Char => pathKey pc.1)).Perm
        ((cands.filterMap (loadPair excl)).map
          (fun pc : String × List Char => pathKey pc.1)) :=
      ((sortByKey_perm (fun pr : String × List Char => pathKey pr.1) _).trans hpermpairs).map
        (fun pc : String × List Char => pathKey pc.1)
    exact hmp.nodup_iff.mpr hndL
  · exact hltL

/-- Witness for C5 at a concrete two-file snapshot with an out-of-order
schedule (worker of "b" finishes first). -/
theorem c5_seq_par_equiv_witness :
    parResult [("a", [97]), ("b", [98])] false 100 none
        [Ev.check 1, Ev.commit 1, Ev.check 0, Ev.commit 0] =
      seqAdmit [("a", [97]), ("b", [98])] false 100 none ∧
    seqAdmit [("a", [97]), ("b", [98])] false 100 none =
      [("a", [97]), ("b", [98])].filterMap (loadPair false) :=
  c5_seq_par_equiv [("a", [97]), ("b", [98])] false 100 none
    [Ev.check 1, Ev.commit 1, Ev.check 0, Ev.commit 0]
    (by decide)
    (by decide) (fun m hm => Option.noConfusion hm)
    (by
      intro i hi
      match i with
      | 0 => exact ⟨[Ev.check 1, Ev.commit 1], [], [], rfl⟩
      | 1 => exact ⟨[], [], [Ev.check 0, Ev.commit 0], rfl⟩
      | (n + 2) =>
        rw [loadAt, List.getElem?_eq_none (by simp)] at hi
        simp at hi)

/-! ## C6: blank-line collapsing lemmas -/

/-- Helper: one replace pass never lengthens the text. -/
theorem collapseOnce_length_le : ∀ s : List Char, (collapseOnce s).length ≤ s.length
  | [] => by simp [collapseOnce]
  | [c] => by simp [collapseOnce]
  | [c, d] => by simp [collapseOnce]
  | a :: b :: c :: rest => by
    rw [collapseOnce]
    split
    · have := collapseOnce_length_le rest
      simp only [List.length_cons]
      omega
    · have := collapseOnce_length_le (b :: c :: rest)
      simp only [List.length_cons] at *
      omega

/-- Helper: a productive replace pass strictly shrinks the text. -/
theorem collapseOnce_length_lt :
    ∀ s : List Char, containsNNN s = true → (collapseOnce s).length < s.length
  | [], h => by simp [containsNNN] at h
  | [c], h => by simp [containsNNN] at h
  | [c, d], h => by simp [containsNNN] at h
  | a :: b :: c :: rest, h => by
    rw [collapseOnce]
    split
    · have := collapseOnce_length_le rest
      simp only [List.length_cons]
      omega
    · rename_i hne
      have htail : containsNNN (b :: c :: rest) = true := by
        rw [containsNNN] at h
        rcases Bool.or_eq_true_iff.mp h with h1 | h1
        · exfalso
          apply hne
          simp only [Bool.and_eq_true, decide_eq_true_eq] at h1
          exact ⟨h1.1.1, h1.1.2, h1.2⟩
        · exact h1
      have := collapseOnce_length_lt (b :: c :: rest) htail
      simp only [List.length_cons] at *
      omega

/-- Helper: with fuel at least the length, the collapsing loop reaches a
state with no triple newline. -/
theorem collapseLoopAux_no_nnn :
    ∀ (n : Nat) (s : List Char), s.length ≤ n →
      containsNNN (collapseLoopAux n s) = false
  | 0, s, h => by
    rw [collapseLoopAux]
    have : s = [] := List.eq_nil_of_length_eq_zero (by omega)
    rw [this]
    rfl
  | n + 1, s, h => by
    rw [collapseLoopAux]
    split
    · rename_i hc
      refine collapseLoopAux_no_nnn n (collapseOnce s) ?_
      have := collapseOnce_length_lt s hc
      omega
    · rename_i hc
      exact Bool.not_eq_true _ ▸ (Bool.eq_false_iff.mpr (fun habs => hc habs))

/-- Helper: the triple-newline test passes to the tail. -/
theorem containsNNN_tail (c : Char) (r : List Char) (h : containsNNN (c :: r) = false) :
    containsNNN r = false := by
  match r with
  | [] => rfl
  | [x] => rfl
  | b :: c' :: rest =>
    rw [containsNNN, Bool.or_eq_false_iff] at h
    exact h.2

/-- Helper: a text with no triple newline is a fixed point of the squeeze,
in each run-state consistent with its context. -/
theorem squeeze_fix :
    ∀ s : List Char,
      (containsNNN s = false → squeezeSt 0 s = s) ∧
      (containsNNN ('\n' :: s) = false → squeezeSt 1 s = s) ∧
      (containsNNN ('\n' :: '\n' :: s) = false → squeezeSt 2 s = s)
  | [] => by
    refine ⟨fun _ => rfl, fun _ => rfl, fun _ => rfl⟩
  | c :: r => by
    obtain ⟨ih0, ih1, ih2⟩ := squeeze_fix r
    refine ⟨?_, ?_, ?_⟩
    · intro h
      by_cases hc : c = '\n'
      · subst hc
        rw [squeezeSt, if_pos rfl, if_neg (by omega)]
        rw [ih1 h]
      · rw [squeezeSt, if_neg hc]
        rw [ih0 (containsNNN_tail c r h)]
    · intro h
      by_cases hc : c = '\n'
      · subst hc
        rw [squeezeSt, if_pos rfl, if_neg (by omega)]
        rw [ih2 h]
      · rw [squeezeSt, if_neg hc]
        rw [ih0 (containsNNN_tail c r (containsNNN_tail '\n' (c :: r) h))]
    · intro h
      by_cases hc : c = '\n'
      · subst hc
        exfalso
        rw [containsNNN] at h
        simp at h
      · rw [squeezeSt, if_neg hc]
        rw [ih0 (containsNNN_tail c r
          (containsNNN_tail '\n' (c :: r) (containsNNN_tail '\n' ('\n' :: c :: r) h)))]

/-- Helper: squeeze evaluation, newline with a full run. -/
theorem squeezeSt_nl_ge2 (k : Nat) (hk : 2 ≤ k) (r : List Char) :
    squeezeSt k ('\n' :: r) = squeezeSt k r := by
  rw [squeezeSt, if_pos rfl, if_pos hk]

/-- Helper: squeeze evaluation, newline within the cap. -/
theorem squeezeSt_nl_lt2 (k : Nat) (hk : ¬ 2 ≤ k) (r : List Char) :
    squeezeSt k ('\n' :: r) = '\n' :: squeezeSt (k + 1) r := by
  rw [squeezeSt, if_pos rfl, if_neg hk]

/-- Helper: squeeze evaluation, other characters. -/
theorem squeezeSt_other (k : Nat) (c : Char) (hc : c ≠ '\n') (r : List Char) :
    squeezeSt k (c :: r) = c :: squeezeSt 0 r := by
  rw [squeezeSt, if_neg hc]

/-- Helper: peeling a common head through the squeeze. -/
theorem squeezeSt_congr_tail (a : Char) (X Y : List Char)
    (h : ∀ k, squeezeSt k X = squeezeSt k Y) :
    ∀ k, squeezeSt k (a :: X) = squeezeSt k (a :: Y) := by
  intro k
  by_cases ha : a = '\n'
  · subst ha
    by_cases hk : 2 ≤ k
    · rw [squeezeSt, if_pos rfl, if_pos hk, squeezeSt, if_pos rfl, if_pos hk, h k]
    · rw [squeezeSt, if_pos rfl, if_neg hk, squeezeSt, if_pos rfl, if_neg hk, h (k + 1)]
  · rw [squeezeSt, if_neg ha, squeezeSt, if_neg ha, h 0]

/-- Helper: one replace pass does not change the squeezed text. -/
theorem squeeze_collapseOnce :
    ∀ (s : List Char) (k : Nat), squeezeSt k (collapseOnce s) = squeezeSt k s
  | [], _ => rfl
  | [c], _ => rfl
  | [c, d], _ => rfl
  | a :: b :: c :: rest, k => by
    rw [collapseOnce]
    split
    · rename_i htr
      obtain ⟨rfl, rfl, rfl⟩ := htr
      by_cases hk : 2 ≤ k
      · rw [squeezeSt_nl_ge2 k hk ('\n' :: collapseOnce rest),
          squeezeSt_nl_ge2 k hk (collapseOnce rest),
          squeezeSt_nl_ge2 k hk ('\n' :: '\n' :: rest),
          squeezeSt_nl_ge2 k hk ('\n' :: rest), squeezeSt_nl_ge2 k hk rest]
        exact squeeze_collapseOnce rest k
      · have hk2 : k = 0 ∨ k = 1 := by omega
        rcases hk2 with rfl | rfl
        · rw [squeezeSt_nl_lt2 0 (by omega) ('\n' :: collapseOnce rest),
            squeezeSt_nl_lt2 (0 + 1) (by omega) (collapseOnce rest),
            squeezeSt_nl_lt2 0 (by omega) ('\n' :: '\n' :: rest),
            squeezeSt_nl_lt2 (0 + 1) (by omega) ('\n' :: rest),
            squeezeSt_nl_ge2 (0 + 1 + 1) (by omega) rest]
          exact congrArg _ (congrArg _ (squeeze_collapseOnce rest (0 + 1 + 1)))
        · rw [squeezeSt_nl_lt2 1 (by omega) ('\n' :: collapseOnce rest),
            squeezeSt_nl_ge2 (1 + 1) (by omega) (collapseOnce rest),
            squeezeSt_nl_lt2 1 (by omega) ('\n' :: '\n' :: rest),
            squeezeSt_nl_ge2 (1 + 1) (by omega) ('\n' :: rest),
            squeezeSt_nl_ge2 (1 + 1) (by omega) rest]
          exact congrArg _ (squeeze_collapseOnce rest (1 + 1))
    · exact squeezeSt_congr_tail a _ _ (squeeze_collapseOnce (b :: c :: rest)) k

/-- Helper: with fuel at least the length, the collapsing loop computes the
squeeze. -/
theorem collapseLoopAux_squeeze :
    ∀ (n : Nat) (s : List Char), s.length ≤ n → collapseLoopAux n s = squeezeSt 0 s
  | 0, s, h => by
    have : s = [] := List.eq_nil_of_length_eq_zero (by omega)
    rw [this]
    rfl
  | n + 1, s, h => by
    rw [collapseLoopAux]
    split
    · rename_i hc
      have hlt := collapseOnce_length_lt s hc
      rw [collapseLoopAux_squeeze n (collapseOnce s) (by omega)]
      rw [squeeze_collapseOnce]
    · rename_i hc
      exact ((squeeze_fix s).1 (Bool.eq_false_iff.mpr (fun habs => hc habs))).symm

/-- Helper: the collapsing loop of the source is exactly the run-capping
squeeze. -/
theorem collapseBlank_eq_squeeze (s : List Char) : collapseBlank s = squeezeSt 0 s :=
  collapseLoopAux_squeeze s.length s (Nat.le_refl _)

/-! ## C6: squeeze boundary and line structure lemmas -/

/-- Helper: the last element behind a cons with nonempty tail. -/
theorem getLast?_cons_ne_nil (c : Char) (l : List Char) (h : l ≠ []) :
    (c :: l).getLast? = l.getLast? := by
  rcases l with _ | ⟨x, xs⟩
  · exact absurd rfl h
  · rw [List.getLast?_cons_cons]

/-- Helper: squeezing from run-state 0 never empties a nonempty text. -/
theorem squeezeSt_zero_ne_nil (s : List Char) (h : s ≠ []) : squeezeSt 0 s ≠ [] := by
  rcases s with _ | ⟨c, r⟩
  · exact absurd rfl h
  · by_cases hc : c = '\n'
    · subst hc
      rw [squeezeSt_nl_lt2 0 (by omega)]
      exact List.cons_ne_nil _ _
    · rw [squeezeSt_other 0 c hc]
      exact List.cons_ne_nil _ _

/-- Helper: squeezing preserves a trailing newline (or empties the text). -/
theorem squeezeSt_last_nl :
    ∀ (s : List Char) (k : Nat), s.getLast? = some '\n' →
      squeezeSt k s = [] ∨ (squeezeSt k s).getLast? = some '\n'
  | [], k, h => by simp at h
  | [c], k, h => by
    simp only [List.getLast?_singleton, Option.some.injEq] at h
    subst h
    by_cases hk : 2 ≤ k
    · rw [squeezeSt_nl_ge2 k hk]
      exact Or.inl rfl
    · rw [squeezeSt_nl_lt2 k hk]
      exact Or.inr rfl
  | c :: d :: r, k, h => by
    rw [getLast?_cons_ne_nil c (d :: r) (List.cons_ne_nil _ _)] at h
    by_cases hc : c = '\n'
    · subst hc
      by_cases hk : 2 ≤ k
      · rw [squeezeSt_nl_ge2 k hk]
        exact squeezeSt_last_nl (d :: r) k h
      · rw [squeezeSt_nl_lt2 k hk]
        rcases squeezeSt_last_nl (d :: r) (k + 1) h with h1 | h1
        · rw [h1]
          exact Or.inr rfl
        · right
          rw [getLast?_cons_ne_nil _ _ (by intro habs; rw [habs] at h1; simp at h1)]
          exact h1
    · rw [squeezeSt_other k c hc]
      rcases squeezeSt_last_nl (d :: r) 0 h with h1 | h1
      · exact absurd h1 (squeezeSt_zero_ne_nil (d :: r) (List.cons_ne_nil _ _))
      · right
        rw [getLast?_cons_ne_nil _ _ (by intro habs; rw [habs] at h1; simp at h1)]
        exact h1

/-- Helper: squeezing preserves a non-newline last character. -/
theorem squeezeSt_last_not_nl :
    ∀ (s : List Char) (k : Nat) (x : Char), x ≠ '\n' → s.getLast? = some x →
      (squeezeSt k s).getLast? = some x
  | [], k, x, hx, h => by simp at h
  | [c], k, x, hx, h => by
    simp only [List.getLast?_singleton, Option.some.injEq] at h
    subst h
    rw [squeezeSt_other k c hx]
    rfl
  | c :: d :: r, k, x, hx, h => by
    rw [getLast?_cons_ne_nil c (d :: r) (List.cons_ne_nil _ _)] at h
    by_cases hc : c = '\n'
    · subst hc
      by_cases hk : 2 ≤ k
      · rw [squeezeSt_nl_ge2 k hk]
        exact squeezeSt_last_not_nl (d :: r) k x hx h
      · rw [squeezeSt_nl_lt2 k hk]
        have h1 := squeezeSt_last_not_nl (d :: r) (k + 1) x hx h
        rw [getLast?_cons_ne_nil _ _ (by intro habs; rw [habs] at h1; simp at h1)]
        exact h1
    · rw [squeezeSt_other k c hc]
      have h1 := squeezeSt_last_not_nl (d :: r) 0 x hx h
      rw [getLast?_cons_ne_nil _ _ (by intro habs; rw [habs] at h1; simp at h1)]
      exact h1

/-- Helper: a nonempty text splits into at least one piece. -/
theorem splitInclNl_ne_nil (s : List Char) (h : s ≠ []) : splitInclNl s ≠ [] := by
  rcases s with _ | ⟨c, rest⟩
  · exact absurd rfl h
  · rw [splitInclNl]
    split
    · exact List.cons_ne_nil _ _
    · split
      · exact List.cons_ne_nil _ _
      · exact List.cons_ne_nil _ _

/-- Helper: every piece either is newline-terminated with no interior
newline, or is a nonempty final piece with no newline at all. -/
theorem splitInclNl_char :
    ∀ (s : List Char) (p : List Char), p ∈ splitInclNl s →
      (∃ q, p = q ++ ['\n'] ∧ '\n' ∉ q) ∨ ('\n' ∉ p ∧ p ≠ [])
  | [], p, hp => by simp [splitInclNl] at hp
  | c :: rest, p, hp => by
    rw [splitInclNl] at hp
    by_cases hc : c = '\n'
    · rw [if_pos hc] at hp
      rcases List.mem_cons.mp hp with rfl | hp'
      · left
        exact ⟨[], rfl, by simp⟩
      · exact splitInclNl_char rest p hp'
    · rw [if_neg hc] at hp
      rcases hrec : splitInclNl rest with _ | ⟨q, qs⟩
      · rw [hrec] at hp
        rcases List.mem_singleton.mp hp with rfl
        right
        refine ⟨?_, List.cons_ne_nil _ _⟩
        intro habs
        rcases List.mem_singleton.mp habs with rfl
        exact hc rfl
      · rw [hrec] at hp
        rcases List.mem_cons.mp hp with rfl | hp'
        · have hq : q ∈ splitInclNl rest := by rw [hrec]; exact List.mem_cons_self _ _
          rcases splitInclNl_char rest q hq with ⟨q', hq', hnq⟩ | ⟨hnq, hne⟩
          · left
            refine ⟨c :: q', by rw [hq']; rfl, ?_⟩
            intro habs
            rcases List.mem_cons.mp habs with heq | habs'
            · exact hc heq.symm
            · exact hnq habs'
          · right
            refine ⟨?_, List.cons_ne_nil _ _⟩
            intro habs
            rcases List.mem_cons.mp habs with heq | habs'
            · exact hc heq.symm
            · exact hnq habs'
        · exact splitInclNl_char rest p (by rw [hrec]; exact List.mem_cons_of_mem _ hp')

/-- Helper: no produced line contains a newline. -/
theorem lines_no_nl (s : List Char) : ∀ l ∈ linesOf s, '\n' ∉ l := by
  intro l hl
  unfold linesOf at hl
  obtain ⟨p, hp, rfl⟩ := List.mem_map.mp hl
  rcases splitInclNl_char s p hp with ⟨q, rfl, hnq⟩ | ⟨hnp, hne⟩
  · unfold lineOfPiece
    rw [if_pos (List.getLast?_concat q), List.dropLast_concat]
    split
    · intro habs
      exact hnq ((List.dropLast_sublist q).subset habs)
    · exact hnq
  · unfold lineOfPiece
    rw [if_neg (fun (habs : p.getLast? = some '\n') => hnp (List.mem_of_mem_getLast? habs))]
    exact hnp

/-- Helper: with no newline at all, the text is its own single piece. -/
theorem splitInclNl_no_nl :
    ∀ s : List Char, '\n' ∉ s → s ≠ [] → splitInclNl s = [s]
  | [], _, h => absurd rfl h
  | c :: rest, hn, _ => by
    have hc : c ≠ '\n' := fun habs => hn (habs ▸ List.mem_cons_self _ _)
    rw [splitInclNl, if_neg hc]
    rcases hr : rest with _ | ⟨d, rest'⟩
    · rw [splitInclNl]
    · have hrec := splitInclNl_no_nl rest (fun habs => hn (List.mem_cons_of_mem _ habs)) (by rw [hr]; exact List.cons_ne_nil _ _)
      rw [hr] at hrec
      rw [hrec]

/-- Helper: a text containing a newline but not ending with one splits into
at least two pieces. -/
theorem splitInclNl_two_pieces :
    ∀ s : List Char, '\n' ∈ s → s.getLast? ≠ some '\n' →
      2 ≤ (splitInclNl s).length
  | [], hmem, _ => absurd hmem (List.not_mem_nil _)
  | c :: rest, hmem, hlast => by
    rw [splitInclNl]
    by_cases hc : c = '\n'
    · rw [if_pos hc]
      have hrest : rest ≠ [] := by
        intro habs
        subst habs
        subst hc
        exact hlast rfl
      have := splitInclNl_ne_nil rest hrest
      rcases hr : splitInclNl rest with _ | ⟨p, ps⟩
      · exact absurd hr this
      · simp [List.length_cons]
    · rw [if_neg hc]
      have hmem' : '\n' ∈ rest := by
        rcases List.mem_cons.mp hmem with heq | h'
        · exact absurd heq.symm hc
        · exact h'
      have hrest : rest ≠ [] := fun habs => List.not_mem_nil _ (habs ▸ hmem')
      have hlast' : rest.getLast? ≠ some '\n' := by
        rw [getLast?_cons_ne_nil c rest hrest] at hlast
        exact hlast
      have h2 := splitInclNl_two_pieces rest hmem' hlast'
      rcases hr : splitInclNl rest with _ | ⟨p, ps⟩
      · rw [hr] at h2; simp at h2
      · rw [hr] at h2
        simp only [List.length_cons] at h2 ⊢
        omega

/-- Helper: a nonempty text has at least one line. -/
theorem linesOf_ne_nil (s : List Char) (h : s ≠ []) : linesOf s ≠ [] := by
  unfold linesOf
  intro habs
  exact splitInclNl_ne_nil s h (List.map_eq_nil_iff.mp habs)

/-! ## C6: scanner and per-line lemmas -/

/-- Helper: a nonempty list has a last element. -/
theorem exists_getLast? {α : Type} (l : List α) (h : l ≠ []) : ∃ x, l.getLast? = some x := by
  rcases List.eq_nil_or_concat l with rfl | ⟨l', a, rfl⟩
  · exact absurd rfl h
  · exact ⟨a, by rw [List.concat_eq_append]; exact List.getLast?_concat _⟩

/-- Helper: horizontal whitespace is Rust whitespace. -/
theorem isHT_isRustWhitespace (x : Char) (h : isHT x = true) :
    isRustWhitespace x = true := by
  simp only [isHT, Bool.or_eq_true, beq_iff_eq] at h
  rcases h with rfl | rfl <;> decide

/-- Helper: a non-blank line has a non-tab-space remainder. -/
theorem dropWhile_ne_nil_of_not_blank (l : List Char) (h : blankLine l = false) :
    l.dropWhile isHT ≠ [] := by
  intro habs
  rw [List.dropWhile_eq_nil_iff] at habs
  unfold blankLine at h
  rw [List.all_eq_false] at h
  obtain ⟨x, hx, hws⟩ := h
  exact hws (isHT_isRustWhitespace x (habs x hx))

/-- Helper: the head of the dropWhile remainder fails the predicate. -/
theorem dropWhile_head_false (p : Char → Bool) :
    ∀ (l : List Char) (x : Char) (xs : List Char), l.dropWhile p = x :: xs → p x = false
  | [], x, xs, h => by simp at h
  | c :: rest, x, xs, h => by
    rw [List.dropWhile_cons] at h
    by_cases hc : p c = true
    · rw [if_pos hc] at h
      exact dropWhile_head_false p rest x xs h
    · rw [if_neg hc] at h
      rcases h with ⟨rfl, rfl⟩
      exact Bool.not_eq_true _ ▸ hc

/-- Helper: the scanner emits the character itself whenever it is not a
space or tab. -/
theorem wsStep_fst_not_ht (st : WsState) (ch : Char) (h : isHT ch = false) :
    (wsStep st ch).1 = [ch] := by
  have h2 : ¬((ch = ' ' ∨ ch = '\t') ∧ ¬ st.inString = true) := by
    rintro ⟨hc | hc, _⟩ <;> simp [isHT, hc] at h
  unfold wsStep
  split_ifs <;> first | rfl | exact absurd (by assumption) h2

/-- Helper: every character the scanner emits for one input character is a
space or that character. -/
theorem wsStep_fst_mem (st : WsState) (ch x : Char) (h : x ∈ (wsStep st ch).1) :
    x = ' ' ∨ x = ch := by
  unfold wsStep at h
  split at h
  · split at h
    · exact Or.inr (List.mem_singleton.mp h)
    · split at h
      · exact Or.inr (List.mem_singleton.mp h)
      · exact Or.inr (List.mem_singleton.mp h)
  · split at h
    · split at h
      · exact absurd h (List.not_mem_nil x)
      · exact Or.inl (List.mem_singleton.mp h)
    · exact Or.inr (List.mem_singleton.mp h)

/-- Helper: every character the scanner ever emits is a space or a character
of the line. -/
theorem runWs_chars :
    ∀ (l : List Char) (st : WsState) (x : Char), x ∈ runWs st l → x = ' ' ∨ x ∈ l
  | [], st, x, h => by simp [runWs] at h
  | ch :: rest, st, x, h => by
    rw [runWs] at h
    rcases List.mem_append.mp h with h1 | h1
    · rcases wsStep_fst_mem st ch x h1 with rfl | rfl
      · exact Or.inl rfl
      · exact Or.inr (List.mem_cons_self _ _)
    · rcases runWs_chars rest (wsStep st ch).2 x h1 with rfl | h2
      · exact Or.inl rfl
      · exact Or.inr (List.mem_cons_of_mem _ h2)

/-- Helper: the scanner on a line starting with a non-space-tab character
emits that character first. -/
theorem runWs_cons_not_ht (st : WsState) (d : Char) (r : List Char)
    (h : isHT d = false) :
    runWs st (d :: r) = d :: runWs (wsStep st d).2 r := by
  rw [runWs]
  rw [wsStep_fst_not_ht st d h]
  rfl

/-- Helper: every processed line ends with a newline. -/
theorem processLine_last (l : List Char) : (processLine l).getLast? = some '\n' := by
  unfold processLine
  split
  · rfl
  · exact List.getLast?_concat _

/-- Helper: flattening a nonempty list of newline-terminated pieces yields a
newline-terminated text. -/
theorem flatten_last_nl :
    ∀ L : List (List Char), L ≠ [] → (∀ p ∈ L, p.getLast? = some '\n') →
      L.flatten.getLast? = some '\n'
  | [], h, _ => absurd rfl h
  | [p], _, hall => by
    simp only [List.flatten, List.append_nil]
    exact hall p (List.mem_singleton_self p)
  | p :: q :: rest, _, hall => by
    have h1 : (q :: rest).flatten.getLast? = some '\n' :=
      flatten_last_nl (q :: rest) (List.cons_ne_nil _ _)
        (fun r hr => hall r (List.mem_cons_of_mem _ hr))
    have h2 : (q :: rest).flatten ≠ [] := by
      intro habs
      rw [habs] at h1
      simp at h1
    rw [List.flatten_cons, List.getLast?_append_of_ne_nil p h2]
    exact h1

/-- Helper: takeWhile passes over a fully-satisfying prefix. -/
theorem takeWhile_append_all (p : Char → Bool) :
    ∀ (A B : List Char), (∀ x ∈ A, p x = true) →
      (A ++ B).takeWhile p = A ++ B.takeWhile p
  | [], B, _ => rfl
  | a :: A', B, hall => by
    rw [List.cons_append, List.takeWhile_cons,
      if_pos (hall a (List.mem_cons_self _ _)),
      takeWhile_append_all p A' B (fun x hx => hall x (List.mem_cons_of_mem _ hx))]
    rfl

/-- Helper: the scanner agrees with the spec's whitespace collapser on
quote-free input whenever the in-string flag is off. -/
theorem runWs_eq_spec :
    ∀ (l : List Char), (∀ x ∈ l, x ≠ '"' ∧ x ≠ '\x27') →
      ∀ (b : Bool) (sc pc : Char), runWs ⟨b, false, sc, pc⟩ l = wsSpecSt b l
  | [], _, b, _, _ => rfl
  | ch :: rest, hq, b, sc, pc => by
    have hch := hq ch (List.mem_cons_self _ _)
    have hrest : ∀ x ∈ rest, x ≠ '"' ∧ x ≠ '\x27' :=
      fun x hx => hq x (List.mem_cons_of_mem _ hx)
    have hnq : ¬((ch = '"' ∨ ch = '\x27') ∧ pc ≠ '\\') := by
      rintro ⟨hc | hc, _⟩
      · exact hch.1 hc
      · exact hch.2 hc
    rw [runWs]
    by_cases hht : isHT ch = true
    · have hcond : (ch = ' ' ∨ ch = '\t') ∧ ¬(false = true) := by
        constructor
        · simp only [isHT, Bool.or_eq_true, beq_iff_eq] at hht
          exact hht
        · simp
      rcases hb : b with _ | _
      · show ((wsStep ⟨false, false, sc, pc⟩ ch).1 ++
          runWs (wsStep ⟨false, false, sc, pc⟩ ch).2 rest) = wsSpecSt false (ch :: rest)
        rw [wsStep, if_neg hnq, if_pos hcond]
        rw [wsSpecSt, if_pos hht]
        simp only [Bool.false_eq_true, if_false]
        rw [runWs_eq_spec rest hrest true sc ch]
        rfl
      · show ((wsStep ⟨true, false, sc, pc⟩ ch).1 ++
          runWs (wsStep ⟨true, false, sc, pc⟩ ch).2 rest) = wsSpecSt true (ch :: rest)
        rw [wsStep, if_neg hnq, if_pos hcond]
        rw [wsSpecSt, if_pos hht]
        simp only [if_true]
        rw [runWs_eq_spec rest hrest true sc ch]
        rfl
    · have hcond : ¬((ch = ' ' ∨ ch = '\t') ∧ ¬((false : Bool) = true)) := by
        rintro ⟨hc | hc, _⟩ <;> simp [isHT, hc] at hht
      show ((wsStep ⟨b, false, sc, pc⟩ ch).1 ++
        runWs (wsStep ⟨b, false, sc, pc⟩ ch).2 rest) = wsSpecSt b (ch :: rest)
      rw [wsStep, if_neg hnq, if_neg hcond]
      rw [wsSpecSt, if_neg hht]
      rw [runWs_eq_spec rest hrest false sc ch]
      rfl

/-! ## C6: assembly lemmas for the trailing-newline analysis -/

/-- Helper: when the input ends with a newline, the pop of lines 163-165 does
not fire. -/
theorem compressPopped_of_ends (c : List Char) (h : c.getLast? = some '\n') :
    compressPopped c = compressBody c := by
  show (if c.getLast? ≠ some '\n' ∧ (compressBody c).getLast? = some '\n'
    then (compressBody c).dropLast else compressBody c) = compressBody c
  rw [if_neg (fun hcon => hcon.1 h)]

/-- Helper: the body before the pop is the flattened per-line output. -/
theorem compressBody_decomp (c : List Char) (init : List (List Char)) (l : List Char)
    (h : linesOf c = init ++ [l]) :
    compressBody c = (init.map processLine).flatten ++ processLine l := by
  unfold compressBody
  rw [h, List.map_append, List.flatten_append]
  simp

/-- Helper: a non-blank line is processed into indentation, scanned content,
and a final newline. -/
theorem processLine_not_blank (l : List Char) (h : blankLine l = false) :
    processLine l =
      (l.takeWhile isHT ++ runWs wsInit (l.dropWhile isHT)) ++ ['\n'] := by
  unfold processLine
  rw [if_neg (fun habs => by rw [h] at habs; exact Bool.false_ne_true habs)]

/-- Helper: the whole body ends in a newline. -/
theorem compressBody_last (c : List Char) (h : c ≠ []) :
    (compressBody c).getLast? = some '\n' := by
  unfold compressBody
  refine flatten_last_nl _ ?_ ?_
  · intro habs
    exact linesOf_ne_nil c h (List.map_eq_nil_iff.mp habs)
  · intro p hp
    obtain ⟨q, _, rfl⟩ := List.mem_map.mp hp
    exact processLine_last q

/-- Helper: input ending with a newline keeps its trailing newline through
compression. -/
theorem compress_ends_nl (c : List Char) (h : c.getLast? = some '\n') :
    (compress_content c).getLast? = some '\n' := by
  have hne : c ≠ [] := by
    intro habs
    rw [habs] at h
    simp at h
  have hbody : (compressBody c).getLast? = some '\n' := compressBody_last c hne
  have hbne : compressBody c ≠ [] := by
    intro habs
    rw [habs] at hbody
    simp at hbody
  unfold compress_content
  rw [compressPopped_of_ends c h, collapseBlank_eq_squeeze]
  rcases squeezeSt_last_nl (compressBody c) 0 hbody with h1 | h1
  · exact absurd h1 (squeezeSt_zero_ne_nil _ hbne)
  · exact h1

/-- Helper: when the last line is non-blank and the input lacks a trailing
newline, the compressed output ends with a character of that line or a
space, never a newline. -/
theorem compress_last_nonblank (c l : List Char)
    (hnl : c.getLast? ≠ some '\n')
    (hlast : (linesOf c).getLast? = some l) (hbl : blankLine l = false) :
    ∃ x, x ≠ '\n' ∧ (compress_content c).getLast? = some x := by
  obtain ⟨init, hinit⟩ := List.getLast?_eq_some_iff.mp hlast
  have hmeml : l ∈ linesOf c := by
    rw [hinit]
    exact List.mem_append.mpr (Or.inr (List.mem_singleton_self l))
  have hnol : '\n' ∉ l := lines_no_nl c l hmeml
  obtain ⟨d, dr, hd⟩ : ∃ d dr, l.dropWhile isHT = d :: dr := by
    rcases hcase : l.dropWhile isHT with _ | ⟨d, dr⟩
    · exact absurd hcase (dropWhile_ne_nil_of_not_blank l hbl)
    · exact ⟨d, dr, rfl⟩
  have hdht : isHT d = false := dropWhile_head_false isHT l d dr hd
  have hR : runWs wsInit (l.dropWhile isHT) ≠ [] := by
    rw [hd, runWs_cons_not_ht _ _ _ hdht]
    exact List.cons_ne_nil _ _
  obtain ⟨x, hx⟩ := exists_getLast? _ hR
  have hxmem := List.mem_of_mem_getLast? hx
  have hxne : x ≠ '\n' := by
    rcases runWs_chars _ _ _ hxmem with rfl | hmem2
    · decide
    · exact fun habs => hnol (habs ▸ (List.dropWhile_sublist isHT).subset hmem2)
  have hbodyEq : compressBody c =
      ((init.map processLine).flatten ++
        (l.takeWhile isHT ++ runWs wsInit (l.dropWhile isHT))) ++ ['\n'] := by
    rw [compressBody_decomp c init l hinit, processLine_not_blank l hbl,
      ← List.append_assoc]
  have hmidne : l.takeWhile isHT ++ runWs wsInit (l.dropWhile isHT) ≠ [] := by
    intro habs
    exact hR (List.append_eq_nil.mp habs).2
  have hpop : compressPopped c =
      (init.map processLine).flatten ++
        (l.takeWhile isHT ++ runWs wsInit (l.dropWhile isHT)) := by
    show (if c.getLast? ≠ some '\n' ∧ (compressBody c).getLast? = some '\n'
      then (compressBody c).dropLast else compressBody c) = _
    rw [if_pos ⟨hnl, by rw [hbodyEq]; exact List.getLast?_concat _⟩, hbodyEq,
      List.dropLast_concat]
  have hlastmid : ((init.map processLine).flatten ++
      (l.takeWhile isHT ++ runWs wsInit (l.dropWhile isHT))).getLast? = some x := by
    rw [List.getLast?_append_of_ne_nil _ hmidne,
      List.getLast?_append_of_ne_nil _ hR]
    exact hx
  refine ⟨x, hxne, ?_⟩
  unfold compress_content
  rw [collapseBlank_eq_squeeze, hpop]
  exact squeezeSt_last_not_nl _ 0 x hxne hlastmid

/-- Helper: newline-free input never produces a trailing newline. -/
theorem compress_no_nl_input (c : List Char) (hne : c ≠ [])
    (hnl : c.getLast? ≠ some '\n') (hno : '\n' ∉ c) :
    (compress_content c).getLast? ≠ some '\n' := by
  have hlines : linesOf c = [c] := by
    unfold linesOf
    rw [splitInclNl_no_nl c hno hne]
    show [lineOfPiece c] = [c]
    unfold lineOfPiece
    rw [if_neg hnl]
  by_cases hbl : blankLine c = true
  · have hbody : compressBody c = ['\n'] := by
      unfold compressBody
      rw [hlines]
      show processLine c ++ [] = ['\n']
      unfold processLine
      rw [if_pos hbl, List.append_nil]
    have hpop : compressPopped c = [] := by
      show (if c.getLast? ≠ some '\n' ∧ (compressBody c).getLast? = some '\n'
        then (compressBody c).dropLast else compressBody c) = []
      rw [if_pos ⟨hnl, by rw [hbody]; rfl⟩, hbody]
      rfl
    unfold compress_content
    rw [collapseBlank_eq_squeeze, hpop]
    simp [squeezeSt]
  · obtain ⟨x, hxne, hxeq⟩ := compress_last_nonblank c c hnl
      (by rw [hlines]; rfl) (Bool.not_eq_true _ ▸ hbl)
    rw [hxeq]
    intro habs
    exact hxne (Option.some.inj habs)

/-- Helper: input without a trailing newline but with a newline and a blank
final line gains a trailing newline. -/
theorem compress_gains_nl (c : List Char)
    (hnl : c.getLast? ≠ some '\n') (hmem : '\n' ∈ c)
    (hbl : ∀ l, (linesOf c).getLast? = some l → blankLine l = true) :
    (compress_content c).getLast? = some '\n' := by
  have hne : c ≠ [] := fun habs => List.not_mem_nil _ (habs ▸ hmem)
  obtain ⟨l, hl⟩ := exists_getLast? (linesOf c) (linesOf_ne_nil c hne)
  obtain ⟨init, hinit⟩ := List.getLast?_eq_some_iff.mp hl
  have hlen : 2 ≤ (linesOf c).length := by
    unfold linesOf
    rw [List.length_map]
    exact splitInclNl_two_pieces c hmem hnl
  have hinitne : init ≠ [] := by
    intro habs
    rw [hinit, habs] at hlen
    simp at hlen
  have hF : ((init.map processLine).flatten).getLast? = some '\n' := by
    refine flatten_last_nl _ ?_ ?_
    · intro habs
      exact hinitne (List.map_eq_nil_iff.mp habs)
    · intro p hp
      obtain ⟨q, _, rfl⟩ := List.mem_map.mp hp
      exact processLine_last q
  have hFne : (init.map processLine).flatten ≠ [] := by
    intro habs
    rw [habs] at hF
    simp at hF
  have hbodyEq : compressBody c = (init.map processLine).flatten ++ ['\n'] := by
    rw [compressBody_decomp c init l hinit]
    unfold processLine
    rw [if_pos (hbl l hl)]
  have hpop : compressPopped c = (init.map processLine).flatten := by
    show (if c.getLast? ≠ some '\n' ∧ (compressBody c).getLast? = some '\n'
      then (compressBody c).dropLast else compressBody c) = _
    rw [if_pos ⟨hnl, by rw [hbodyEq]; exact List.getLast?_concat _⟩, hbodyEq,
      List.dropLast_concat]
  unfold compress_content
  rw [collapseBlank_eq_squeeze, hpop]
  rcases squeezeSt_last_nl _ 0 hF with h1 | h1
  · exact absurd h1 (squeezeSt_zero_ne_nil _ hFne)
  · exact h1

/-- Helper: processing preserves the leading indentation of a non-blank
line. -/
theorem processLine_takeWhile (l : List Char) (h : blankLine l = false) :
    (processLine l).takeWhile isHT = l.takeWhile isHT := by
  obtain ⟨d, dr, hd⟩ : ∃ d dr, l.dropWhile isHT = d :: dr := by
    rcases hcase : l.dropWhile isHT with _ | ⟨d, dr⟩
    · exact absurd hcase (dropWhile_ne_nil_of_not_blank l h)
    · exact ⟨d, dr, rfl⟩
  have hdht : isHT d = false := dropWhile_head_false isHT l d dr hd
  rw [processLine_not_blank l h, List.append_assoc,
    takeWhile_append_all isHT _ _ (fun x hx => List.mem_takeWhile_imp hx),
    hd, runWs_cons_not_ht _ _ _ hdht]
  rw [List.cons_append, List.takeWhile_cons, if_neg (by rw [hdht]; exact Bool.false_ne_true)]
  rw [List.append_nil]

/-! ## C6: the scanner on lines containing a quoted-string literal -/

/-- Helper: the scanner processes an appended list in two stages, threading
the state. -/
theorem runWs_append :
    ∀ (l rest : List Char) (st : WsState),
      runWs st (l ++ rest) =
        runWs st l ++ runWs (l.foldl (fun s ch => (wsStep s ch).2) st) rest
  | [], rest, st => rfl
  | ch :: l, rest, st => by
    show (wsStep st ch).1 ++ runWs (wsStep st ch).2 (l ++ rest) =
      ((wsStep st ch).1 ++ runWs (wsStep st ch).2 l) ++
        runWs (List.foldl (fun s ch => (wsStep s ch).2) (wsStep st ch).2 l) rest
    rw [runWs_append l rest (wsStep st ch).2, List.append_assoc]

/-- Helper: outside a string, a non-quote character leaves the scanner
outside the string with the same string character and itself as previous
character. -/
theorem wsStep_snd_not_quote (b : Bool) (sc pc ch : Char)
    (h1 : ch ≠ '"') (h2 : ch ≠ '\x27') :
    ∃ b2, (wsStep ⟨b, false, sc, pc⟩ ch).2 = ⟨b2, false, sc, ch⟩ := by
  have hnq : ¬((ch = '"' ∨ ch = '\x27') ∧ pc ≠ '\\') := by
    rintro ⟨hc | hc, _⟩
    · exact h1 hc
    · exact h2 hc
  unfold wsStep
  rw [if_neg hnq]
  split
  · split
    · exact ⟨true, rfl⟩
    · exact ⟨true, rfl⟩
  · exact ⟨false, rfl⟩

/-- Helper: the scanner state after a quote-free segment started outside a
string: still outside, same string character, previous character the last
consumed one. -/
theorem foldl_wsStep_no_quote :
    ∀ (l : List Char), (∀ x ∈ l, x ≠ '"' ∧ x ≠ '\x27') →
      ∀ (b : Bool) (sc pc : Char),
        ∃ b2 c2, l.foldl (fun s ch => (wsStep s ch).2) ⟨b, false, sc, pc⟩ =
          ⟨b2, false, sc, c2⟩ ∧ (c2 = pc ∨ c2 ∈ l)
  | [], _, b, sc, pc => ⟨b, pc, rfl, Or.inl rfl⟩
  | ch :: l, hq, b, sc, pc => by
    obtain ⟨b2, hstep⟩ := wsStep_snd_not_quote b sc pc ch
      (hq ch (List.mem_cons_self _ _)).1 (hq ch (List.mem_cons_self _ _)).2
    rw [List.foldl_cons, hstep]
    obtain ⟨b3, c3, heq, hc3⟩ :=
      foldl_wsStep_no_quote l (fun x hx => hq x (List.mem_cons_of_mem _ hx)) b2 sc ch
    refine ⟨b3, c3, heq, Or.inr ?_⟩
    rcases hc3 with rfl | h
    · exact List.mem_cons_self _ _
    · exact List.mem_cons_of_mem _ h

/-- Helper: inside a string, a non-quote character is passed through
verbatim and the scanner stays inside the string. -/
theorem wsStep_in_string (p : Bool) (sc pc ch : Char)
    (h1 : ch ≠ '"') (h2 : ch ≠ '\x27') :
    wsStep ⟨p, true, sc, pc⟩ ch = ([ch], ⟨false, true, sc, ch⟩) := by
  have hnq : ¬((ch = '"' ∨ ch = '\x27') ∧ pc ≠ '\\') := by
    rintro ⟨hc | hc, _⟩
    · exact h1 hc
    · exact h2 hc
  have hns : ¬((ch = ' ' ∨ ch = '\t') ∧ ¬((true : Bool) = true)) := by
    rintro ⟨-, hc⟩
    exact hc rfl
  unfold wsStep
  rw [if_neg hnq, if_neg hns]

/-- Helper: a quote-free segment inside a string is emitted verbatim —
in particular its whitespace runs are NOT collapsed. -/
theorem runWs_in_string :
    ∀ (l : List Char), (∀ x ∈ l, x ≠ '"' ∧ x ≠ '\x27') →
      ∀ (p : Bool) (sc pc : Char), runWs ⟨p, true, sc, pc⟩ l = l
  | [], _, p, sc, pc => rfl
  | ch :: l, hq, p, sc, pc => by
    show (wsStep ⟨p, true, sc, pc⟩ ch).1 ++ runWs (wsStep ⟨p, true, sc, pc⟩ ch).2 l =
      ch :: l
    rw [wsStep_in_string p sc pc ch
      (hq ch (List.mem_cons_self _ _)).1 (hq ch (List.mem_cons_self _ _)).2]
    rw [runWs_in_string l (fun x hx => hq x (List.mem_cons_of_mem _ hx)) false sc ch]
    rfl

/-- Helper: the scanner state after a quote-free segment inside a string. -/
theorem foldl_wsStep_in_string :
    ∀ (l : List Char), (∀ x ∈ l, x ≠ '"' ∧ x ≠ '\x27') →
      ∀ (p : Bool) (sc pc : Char),
        ∃ p2 c2, l.foldl (fun s ch => (wsStep s ch).2) ⟨p, true, sc, pc⟩ =
          ⟨p2, true, sc, c2⟩ ∧ (c2 = pc ∨ c2 ∈ l)
  | [], _, p, sc, pc => ⟨p, pc, rfl, Or.inl rfl⟩
  | ch :: l, hq, p, sc, pc => by
    rw [List.foldl_cons]
    rw [show (wsStep ⟨p, true, sc, pc⟩ ch).2 = ⟨false, true, sc, ch⟩ from by
      rw [wsStep_in_string p sc pc ch
        (hq ch (List.mem_cons_self _ _)).1 (hq ch (List.mem_cons_self _ _)).2]]
    obtain ⟨p3, c3, heq, hc3⟩ :=
      foldl_wsStep_in_string l (fun x hx => hq x (List.mem_cons_of_mem _ hx)) false sc ch
    refine ⟨p3, c3, heq, Or.inr ?_⟩
    rcases hc3 with rfl | h
    · exact List.mem_cons_self _ _
    · exact List.mem_cons_of_mem _ h

/-- Helper: an opening quote not preceded by a backslash enters the string
and is emitted verbatim. -/
theorem wsStep_open_quote (b : Bool) (sc pc q : Char)
    (hq : q = '"' ∨ q = '\x27') (hpc : pc ≠ '\\') :
    wsStep ⟨b, false, sc, pc⟩ q = ([q], ⟨false, true, q, q⟩) := by
  unfold wsStep
  rw [if_pos ⟨hq, hpc⟩, if_pos (fun h => Bool.false_ne_true h)]

/-- Helper: the matching closing quote not preceded by a backslash leaves
the string and is emitted verbatim. -/
theorem wsStep_close_quote (p : Bool) (q pc : Char)
    (hq : q = '"' ∨ q = '\x27') (hpc : pc ≠ '\\') :
    wsStep ⟨p, true, q, pc⟩ q = ([q], ⟨false, false, q, q⟩) := by
  unfold wsStep
  rw [if_pos ⟨hq, hpc⟩, if_neg (fun h : ¬ (true : Bool) = true => h rfl), if_pos rfl]

/-- Helper: on a line content consisting of a quote-free prefix, a
quoted-string literal, and a quote-free suffix, the scanner collapses the
whitespace runs of the prefix and the suffix (the parts OUTSIDE the literal,
per the spec collapser) and passes the literal's inside through verbatim. -/
theorem runWs_quoted (q : Char) (hqc : q = '"' ∨ q = '\x27')
    (pre mid post : List Char)
    (hpre : ∀ x ∈ pre, x ≠ '"' ∧ x ≠ '\x27')
    (hmid : ∀ x ∈ mid, x ≠ '"' ∧ x ≠ '\x27')
    (hpost : ∀ x ∈ post, x ≠ '"' ∧ x ≠ '\x27')
    (hbs1 : '\\' ∉ pre) (hbs2 : '\\' ∉ mid) :
    runWs wsInit (pre ++ q :: (mid ++ q :: post)) =
      wsSpecSt false pre ++ q :: (mid ++ q :: wsSpecSt false post) := by
  unfold wsInit
  rw [runWs_append]
  obtain ⟨b2, c2, hstA, hc2⟩ := foldl_wsStep_no_quote pre hpre false '"' '\x00'
  have hc2bs : c2 ≠ '\\' := by
    rcases hc2 with rfl | h
    · decide
    · exact fun habs => hbs1 (habs ▸ h)
  rw [hstA, runWs_eq_spec pre hpre false '"' '\x00']
  show _ ++ ((wsStep ⟨b2, false, '"', c2⟩ q).1 ++
    runWs (wsStep ⟨b2, false, '"', c2⟩ q).2 (mid ++ q :: post)) = _
  rw [wsStep_open_quote b2 '"' c2 q hqc hc2bs]
  show _ ++ (q :: runWs ⟨false, true, q, q⟩ (mid ++ q :: post)) = _
  rw [runWs_append]
  obtain ⟨p2, c3, hstB, hc3⟩ := foldl_wsStep_in_string mid hmid false q q
  have hc3bs : c3 ≠ '\\' := by
    rcases hc3 with rfl | h
    · rcases hqc with rfl | rfl
      · decide
      · decide
    · exact fun habs => hbs2 (habs ▸ h)
  rw [hstB, runWs_in_string mid hmid false q q]
  show _ ++ (q :: (mid ++ ((wsStep ⟨p2, true, q, c3⟩ q).1 ++
    runWs (wsStep ⟨p2, true, q, c3⟩ q).2 post))) = _
  rw [wsStep_close_quote p2 q c3 hqc hc3bs]
  rw [runWs_eq_spec post hpost false q q]
  rfl

/-- Helper: processing a non-blank line whose content part carries one
quoted-string literal keeps the indentation, collapses whitespace runs
outside the literal, and preserves the literal verbatim. -/
theorem processLine_quoted (l : List Char) (q : Char) (pre mid post : List Char)
    (hbl : blankLine l = false) (hqc : q = '"' ∨ q = '\x27')
    (hsplit : l.dropWhile isHT = pre ++ q :: (mid ++ q :: post))
    (hpre : ∀ x ∈ pre, x ≠ '"' ∧ x ≠ '\x27')
    (hmid : ∀ x ∈ mid, x ≠ '"' ∧ x ≠ '\x27')
    (hpost : ∀ x ∈ post, x ≠ '"' ∧ x ≠ '\x27')
    (hbs1 : '\\' ∉ pre) (hbs2 : '\\' ∉ mid) :
    processLine l = l.takeWhile isHT ++
      (wsSpecSt false pre ++ q :: (mid ++ q :: wsSpecSt false post)) ++ ['\n'] := by
  rw [processLine_not_blank l hbl, hsplit,
    runWs_quoted q hqc pre mid post hpre hmid hpost hbs1 hbs2]

/-! ## C6: compression -/

/-- Claim C6, counterexample: the input "a" newline space does not end with a
newline, yet its compressed output "a" newline does.  The blank final line
becomes a bare newline (lines 109-112); the pop of lines 163-165 removes
that newline, but the newline terminating the first line remains as the new
last character, so the trailing-newline state of the original content is
NOT left unchanged. -/
theorem c6_counterexample :
    compress_content ['a', '\n', ' '] = ['a', '\n'] ∧
    (['a', '\n', ' '] : List Char).getLast? ≠ some '\n' ∧
    (compress_content ['a', '\n', ' ']).getLast? = some '\n' := by
  decide

/-- Claim C6: properties of `compress_content`.  (1) The result never
contains three consecutive newlines, i.e. runs of three or more blank lines
are collapsed; (2) the collapsing loop is extensionally the spec's
cap-every-newline-run-at-two function; (3) a trailing newline of the input
is preserved; (4) for input without a trailing newline whose final line is
non-blank (or which contains no newline at all), the output has no trailing
newline either; (5) BUT for input without a trailing newline that contains a
newline and whose final line is blank, the output GAINS a trailing newline —
this is the corrected trailing-newline clause; (6) each non-blank line keeps
its leading indentation (run of spaces and tabs) unchanged; (7) on each
non-blank line free of quote characters, the content after the indentation
has every run of horizontal whitespace collapsed to a single space, exactly
the spec's whitespace collapser; (8) on each non-blank line whose content
part is a quote-free prefix, a quoted-string literal (double- or
single-quoted, not backslash-escaped), and a quote-free suffix, the
whitespace runs OUTSIDE the literal (prefix and suffix) are collapsed by the
spec collapser while the literal's inside is preserved VERBATIM, runs
included. -/
theorem c6_compress_spec (c : List Char) :
    containsNNN (compress_content c) = false ∧
    (∀ s : List Char, collapseBlank s = squeezeSt 0 s) ∧
    (c.getLast? = some '\n' → (compress_content c).getLast? = some '\n') ∧
    (c ≠ [] → c.getLast? ≠ some '\n' →
      ('\n' ∉ c ∨ ∃ l, (linesOf c).getLast? = some l ∧ blankLine l = false) →
      (compress_content c).getLast? ≠ some '\n') ∧
    (c.getLast? ≠ some '\n' → '\n' ∈ c →
      (∀ l, (linesOf c).getLast? = some l → blankLine l = true) →
      (compress_content c).getLast? = some '\n') ∧
    (∀ l : List Char, blankLine l = false →
      (processLine l).takeWhile isHT = l.takeWhile isHT) ∧
    (∀ l : List Char, blankLine l = false → (∀ x ∈ l, x ≠ '"' ∧ x ≠ '\x27') →
      processLine l =
        l.takeWhile isHT ++ wsSpecSt false (l.dropWhile isHT) ++ ['\n']) ∧
    (∀ (l : List Char) (q : Char) (pre mid post : List Char),
      blankLine l = false → (q = '"' ∨ q = '\x27') →
      l.dropWhile isHT = pre ++ q :: (mid ++ q :: post) →
      (∀ x ∈ pre, x ≠ '"' ∧ x ≠ '\x27') →
      (∀ x ∈ mid, x ≠ '"' ∧ x ≠ '\x27') →
      (∀ x ∈ post, x ≠ '"' ∧ x ≠ '\x27') →
      '\\' ∉ pre → '\\' ∉ mid →
      processLine l = l.takeWhile isHT ++
        (wsSpecSt false pre ++ q :: (mid ++ q :: wsSpecSt false post)) ++ ['\n']) := by
  refine ⟨?_, collapseBlank_eq_squeeze, compress_ends_nl c, ?_, compress_gains_nl c,
    processLine_takeWhile, ?_, ?_⟩
  · unfold compress_content collapseBlank
    exact collapseLoopAux_no_nnn _ _ (Nat.le_refl _)
  · intro hne hnl hcase
    rcases hcase with hno | ⟨l, hl, hbl⟩
    · exact compress_no_nl_input c hne hnl hno
    · obtain ⟨x, hxne, hxeq⟩ := compress_last_nonblank c l hnl hl hbl
      rw [hxeq]
      intro habs
      exact hxne (Option.some.inj habs)
  · intro l hbl hq
    rw [processLine_not_blank l hbl, List.append_assoc, ← runWs_eq_spec _
      (fun x hx => hq x ((List.dropWhile_sublist isHT).subset hx)) false '"' '\x00']
    rw [← List.append_assoc]
    rfl
  · intro l q pre mid post hbl hqc hsplit hpre hmid hpost hbs1 hbs2
    exact processLine_quoted l q pre mid post hbl hqc hsplit hpre hmid hpost hbs1 hbs2

/-- Claim C6, witness: the conjuncts evaluated at concrete inputs — "a"
newline keeps its trailing newline; "a" alone stays newline-free; "a"
newline space gains a newline (the corrected clause); the line
space a space space b keeps its one-space indentation and its inner
whitespace run collapses to a single space; and on the quoted line
a space space quote b space space c quote space space d the runs outside
the literal collapse to one space while the run inside it is preserved. -/
theorem c6_compress_spec_witness :
    (compress_content ['a', '\n']).getLast? = some '\n' ∧
    (compress_content ['a']).getLast? ≠ some '\n' ∧
    (compress_content ['a', '\n', ' ']).getLast? = some '\n' ∧
    (processLine [' ', 'a', ' ', ' ', 'b']).takeWhile isHT =
      ([' ', 'a', ' ', ' ', 'b'] : List Char).takeWhile isHT ∧
    (processLine [' ', 'a', ' ', ' ', 'b'] =
      ([' ', 'a', ' ', ' ', 'b'] : List Char).takeWhile isHT ++
        wsSpecSt false (([' ', 'a', ' ', ' ', 'b'] : List Char).dropWhile isHT) ++
        ['\n']) ∧
    (processLine ['a', ' ', ' ', '"', 'b', ' ', ' ', 'c', '"', ' ', ' ', 'd'] =
      (['a', ' ', ' ', '"', 'b', ' ', ' ', 'c', '"', ' ', ' ', 'd'] :
          List Char).takeWhile isHT ++
        (wsSpecSt false ['a', ' ', ' '] ++ '"' ::
          (['b', ' ', ' ', 'c'] ++ '"' :: wsSpecSt false [' ', ' ', 'd'])) ++
        ['\n']) ∧
    processLine ['a', ' ', ' ', '"', 'b', ' ', ' ', 'c', '"', ' ', ' ', 'd'] =
      ['a', ' ', '"', 'b', ' ', ' ', 'c', '"', ' ', 'd', '\n'] := by
  refine ⟨(c6_compress_spec ['a', '\n']).2.2.1 (by decide),
    (c6_compress_spec ['a']).2.2.2.1 (by decide) (by decide) (Or.inl (by decide)),
    (c6_compress_spec ['a', '\n', ' ']).2.2.2.2.1 (by decide) (by decide) ?_,
    (c6_compress_spec []).2.2.2.2.2.1 [' ', 'a', ' ', ' ', 'b'] (by decide),
    (c6_compress_spec []).2.2.2.2.2.2.1 [' ', 'a', ' ', ' ', 'b'] (by decide)
      (by decide),
    (c6_compress_spec []).2.2.2.2.2.2.2
      ['a', ' ', ' ', '"', 'b', ' ', ' ', 'c', '"', ' ', ' ', 'd'] '"'
      ['a', ' ', ' '] ['b', ' ', ' ', 'c'] [' ', ' ', 'd']
      (by decide) (Or.inl rfl) (by decide) (by decide) (by decide) (by decide)
      (by decide) (by decide),
    by decide⟩
  intro l hl
  have h2 : some [' '] = some l := by
    rw [← hl]
    decide
  rw [← Option.some.inj h2]
  decide

end Fclip
